import Mathlib

/-!
# Verification of the photo duplicate handler engine

Shallow embedding of the detection-and-resolution engine of
`photo-duplicate-gui-v2.py` (class `PhotoDuplicateHandler`), together with
theorems settling the frozen claims about it.

Modelling conventions:
* `datetime` values are natural numbers; `datetime.max` is modelled as `⊤`
  of `WithTop ℕ` (a real timestamp is always strictly below it).
* Paths are strings; a `PhotoInfo` stores the parent path, the parent
  directory name, the stem and the extension separately, exactly the four
  pieces of `pathlib.Path` the engine reads.
* The filesystem is the list of paths of the files that exist; `shutil.move`
  removes the source and adds the destination.  A move may also fail for an
  external reason, modelled by an oracle `moveOk : String → Bool` consulted
  at the source path (the `except` branch of the source); a move of a
  non-existing source also fails.  Directory creation (`mkdir`) is implicit.
* `logging.info` on a successful move and `logging.error` on a failed one
  are modelled as two event lists in the run state (the human-readable
  reason strings of the log records are not modelled, nor is the dead
  `keep_reason` computation of the source).
* MD5 (`calculate_file_hash`) streams the file's bytes and nothing else, so
  it is modelled as an arbitrary function of the byte content; theorems
  quantify over it.
* Python `dict` (and `defaultdict`) preserves key insertion order, modelled
  as an association list extended at the back; `set` is modelled as a list
  with `List.insert`, only membership being observed.
-/

namespace PhotoDup

/-- The `PhotoInfo` dataclass of the source: path (split into the four
components the engine uses), MD5 hex digest, perceptual hash (None on
decode failure), EXIF shoot date (None if absent) and filesystem modify
date. -/
structure PhotoInfo where
  parentPath : String
  parentName : String
  stem : String
  ext : String
  hash_value : String
  image_hash : Option String
  shoot_date : Option Nat
  modify_date : Option Nat
deriving DecidableEq

/-- `photo.path` as a string: parent dir joined with `stem + suffix`. -/
def PhotoInfo.path (p : PhotoInfo) : String :=
  p.parentPath ++ "/" ++ p.stem ++ p.ext

/-- `photo.path.name`: filename with extension. -/
def PhotoInfo.name (p : PhotoInfo) : String :=
  p.stem ++ p.ext

/-! ## Hex strings and bit strings (`calculate_similarity`) -/

/-- Value of one hex digit, as `int(s, 16)` reads it.  Python raises on a
non-hex character; the fingerprints produced by the program are always hex,
and we extend by 0 on other characters. -/
def hexDigitVal (c : Char) : Nat :=
  if 48 ≤ c.toNat ∧ c.toNat ≤ 57 then c.toNat - 48
  else if 97 ≤ c.toNat ∧ c.toNat ≤ 102 then c.toNat - 87
  else if 65 ≤ c.toNat ∧ c.toNat ≤ 70 then c.toNat - 55
  else 0

/-- `int(s, 16)`. -/
def hexToNat (s : String) : Nat :=
  s.data.foldl (fun acc c => 16 * acc + hexDigitVal c) 0

/-- Binary digits of `n`, most significant first, no leading zeros
(empty for 0): the digits of `bin(n)[2:]` except that `bin(0)[2:] = "0"`
is handled by `binRepr`. -/
def natBits (n : Nat) : List Bool :=
  if h : n = 0 then []
  else natBits (n / 2) ++ [decide (n % 2 = 1)]
termination_by n
decreasing_by exact Nat.div_lt_self (Nat.pos_of_ne_zero h) one_lt_two

/-- `bin(n)[2:]` as a list of bits (`true` = '1'). -/
def binRepr (n : Nat) : List Bool :=
  if n = 0 then [false] else natBits n

/-- `.zfill(64)`: left-pad with zeros to length 64. -/
def zfill64 (bs : List Bool) : List Bool :=
  List.replicate (64 - bs.length) false ++ bs

/-- Python truthiness of an optional string: `None` and `""` are falsy. -/
def strFalsy : Option String → Bool
  | none => true
  | some s => s.isEmpty

/-- `calculate_similarity` of the source: 0.0 when either hash is falsy,
otherwise `1 - hamming/64` over the zero-filled 64-bit binary expansions
(`zip` truncates to the common length, exactly as in Python).  Floats are
modelled as rationals; all values produced here are dyadic with denominator
64, on which Python float arithmetic is exact. -/
def calculate_similarity (hash1 hash2 : Option String) : ℚ :=
  if strFalsy hash1 || strFalsy hash2 then 0
  else
    let bin1 := zfill64 (binRepr (hexToNat (hash1.getD "")))
    let bin2 := zfill64 (binRepr (hexToNat (hash2.getD "")))
    let hamming := (bin1.zip bin2).countP (fun p => decide (p.1 ≠ p.2))
    1 - (hamming : ℚ) / 64

/-- The mathematical bit-mismatch count of two 64-bit values. -/
def hammingBits (a b : Nat) : Nat :=
  (List.range 64).countP (fun i => decide (a.testBit i ≠ b.testBit i))

/-- The 64-bit (or `w`-bit) big-endian bit vector of `n`. -/
def bitsBE (w n : Nat) : List Bool :=
  (List.range w).map (fun i => n.testBit (w - 1 - i))

/-! ## Decimal rendering (the `(1)`, `(2)`, … collision counters) -/

/-- One decimal digit character. -/
def decDigit : Nat → Char
  | 0 => '0'
  | 1 => '1'
  | 2 => '2'
  | 3 => '3'
  | 4 => '4'
  | 5 => '5'
  | 6 => '6'
  | 7 => '7'
  | 8 => '8'
  | _ => '9'

/-- Numeric value of a decimal digit character. -/
def digitVal (c : Char) : Nat := c.toNat - 48

/-- Decimal digits of `n`, most significant first, empty for 0. -/
def decDigitsCore (n : Nat) : List Char :=
  if h : n = 0 then []
  else decDigitsCore (n / 10) ++ [decDigit (n % 10)]
termination_by n
decreasing_by exact Nat.div_lt_self (Nat.pos_of_ne_zero h) (by norm_num)

/-- Decimal rendering of `n`, as a Python f-string renders an `int`. -/
def decRepr (n : Nat) : String :=
  if n = 0 then "0" else ⟨decDigitsCore n⟩

/-- Reads decimal digits back; inverse of `decRepr` on its image. -/
def decVal (l : List Char) : Nat :=
  l.foldl (fun acc c => 10 * acc + digitVal c) 0

/-! ## Sorting (`sort_photos_by_date_and_name`) -/

/-- `photo.shoot_date or photo.modify_date or datetime.max`: a `datetime`
is always truthy and `None` falsy, so Python's `or` chain is exactly this
option fallback, with `datetime.max` as `⊤`. -/
def createDate (p : PhotoInfo) : WithTop Nat :=
  match p.shoot_date.orElse (fun _ => p.modify_date) with
  | some d => (d : WithTop Nat)
  | none => ⊤

/-- The sort key `(create_date, filename_length)` of `get_compare_key`. -/
def compareKey (p : PhotoInfo) : WithTop Nat × Nat :=
  (createDate p, p.stem.length)

/-- Lexicographic comparison of sort keys, as Python compares tuples. -/
def keyLE (a b : WithTop Nat × Nat) : Bool :=
  decide (a.1 < b.1) || (decide (a.1 = b.1) && decide (a.2 ≤ b.2))

/-- Record comparison used by `sorted(photos, key=get_compare_key)`. -/
def photoLE (a b : PhotoInfo) : Bool := keyLE (compareKey a) (compareKey b)

/-- `sorted` is a stable sort by the comparison key: `mergeSort`. -/
def sort_photos_by_date_and_name (photos : List PhotoInfo) : List PhotoInfo :=
  photos.mergeSort photoLE

/-- The sort-key ordering as a proposition: earlier effective date, or the
same date and a filename (stem) at most as long. -/
def KeyLe (k q : PhotoInfo) : Prop :=
  createDate k < createDate q ∨
    (createDate k = createDate q ∧ k.stem.length ≤ q.stem.length)

/-! ## Scanning (`get_photo_files`) -/

/-- One file on disk as the scanner sees it: its path components, its byte
content, and the outcomes of the per-file metadata reads —
`calculate_image_hash` (None on decode failure), `get_image_shoot_date`
(None if absent), `get_file_modified_date` (always succeeds), and whether
the per-file `try` block raises (e.g. an unreadable file in
`calculate_file_hash`), which the source catches and logs. -/
structure ScanFile where
  parentPath : String
  parentName : String
  stem : String
  ext : String
  content : List Nat
  imageHash : Option String
  shootDate : Option Nat
  modifyDate : Nat
  readError : Bool
deriving DecidableEq

/-- The extension allow-list of the scanner. -/
def photo_extensions : List String := [".jpg", ".jpeg", ".png", ".gif", ".bmp"]

/-- Python's `str.lower()` on an extension (per-character lowercase; the
extensions involved are ASCII). -/
def strLower (s : String) : String := ⟨s.data.map Char.toLower⟩

/-- The `PhotoInfo` built for a successfully scanned file. -/
def mkPhotoInfo (hashFn : List Nat → String) (f : ScanFile) : PhotoInfo :=
  ⟨f.parentPath, f.parentName, f.stem, f.ext, hashFn f.content, f.imageHash,
    f.shootDate, some f.modifyDate⟩

/-- `defaultdict(list)` bucket append: insertion-ordered association list. -/
def insertAssoc (m : List (String × List PhotoInfo)) (k : String) (v : PhotoInfo) :
    List (String × List PhotoInfo) :=
  match m with
  | [] => [(k, [v])]
  | (k1, vs) :: rest =>
    if k1 = k then (k1, vs ++ [v]) :: rest else (k1, vs) :: insertAssoc rest k v

/-- Bucket lookup (empty bucket for an absent key). -/
def lookupAssoc (m : List (String × List PhotoInfo)) (k : String) : List PhotoInfo :=
  match m with
  | [] => []
  | (k1, vs) :: rest => if k1 = k then vs else lookupAssoc rest k

/-- `get_photo_files`: scan the files in order, filter by extension
(lower-cased), build a `PhotoInfo` for each and append it to the bucket of
its MD5 digest; a file whose per-file processing raises is skipped. -/
def get_photo_files (hashFn : List Nat → String) (files : List ScanFile) :
    List (String × List PhotoInfo) :=
  files.foldl (fun m f =>
    if photo_extensions.contains (strLower f.ext) then
      if f.readError then m
      else insertAssoc m (hashFn f.content) (mkPhotoInfo hashFn f)
    else m) []

/-! ## Similarity grouping (`find_similar_images`) -/

/-- One step of the first loop of `find_similar_images`: append the photo
to its MD5 bucket, and when the bucket has more than one member add all its
members' paths to `exact_match_paths`. -/
def exactStep (acc : List (String × List PhotoInfo) × List String) (p : PhotoInfo) :
    List (String × List PhotoInfo) × List String :=
  let groups := insertAssoc acc.1 p.hash_value p
  let bucket := lookupAssoc groups p.hash_value
  if bucket.length > 1 then
    (groups, bucket.foldl (fun s q => s.insert q.path) acc.2)
  else (groups, acc.2)

/-- The `exact_match_paths` set after the first loop. -/
def exact_match_paths (photos : List PhotoInfo) : List String :=
  (photos.foldl exactStep ([], [])).2

/-- `unique_photos`: the similarity pool, with exact duplicates excluded. -/
def unique_photos (photos : List PhotoInfo) : List PhotoInfo :=
  photos.filter (fun p => !(exact_match_paths photos).contains p.path)

/-- The inner loop body of `find_similar_images`: an unprocessed later
photo whose similarity to the seed reaches the threshold joins the current
group and is marked processed. -/
def simStep (t : ℚ) (seed : PhotoInfo) (acc : List PhotoInfo × List String)
    (p2 : PhotoInfo) : List PhotoInfo × List String :=
  if !acc.2.contains p2.path &&
      decide (t ≤ calculate_similarity seed.image_hash p2.image_hash) then
    (acc.1 ++ [p2], acc.2.insert p2.path)
  else acc

/-- The nested loops of `find_similar_images` over the similarity pool:
each unprocessed photo seeds a group, gathers all similar unprocessed later
photos, and the group is emitted if it has more than one member. -/
def findSimilarLoop (t : ℚ) : List PhotoInfo → List String → List (List PhotoInfo)
  | [], _ => []
  | p1 :: rest, processed =>
    if processed.contains p1.path then findSimilarLoop t rest processed
    else
      let res := rest.foldl (simStep t p1) ([p1], processed.insert p1.path)
      let groups := findSimilarLoop t rest res.2
      if res.1.length > 1 then res.1 :: groups else groups

/-- `find_similar_images`. -/
def find_similar_images (t : ℚ) (photos : List PhotoInfo) : List (List PhotoInfo) :=
  findSimilarLoop t (unique_photos photos) []

/-- Modelled from the spec (§4.3 Duplicate Grouper, for the refinement
claim C4): greedy single-link clustering — iterate records in order, each
unclustered record starts a new group, every later unclustered record
whose similarity to the group's seed reaches the threshold is added and
never reconsidered, and groups of final size 1 are discarded. -/
def greedyCluster (t : ℚ) (photos : List PhotoInfo) : List (List PhotoInfo) :=
  match photos with
  | [] => []
  | p :: rest =>
    let matched :=
      rest.filter (fun q => decide (t ≤ calculate_similarity p.image_hash q.image_hash))
    let remaining :=
      rest.filter (fun q => !decide (t ≤ calculate_similarity p.image_hash q.image_hash))
    if matched.isEmpty then greedyCluster t remaining
    else (p :: matched) :: greedyCluster t remaining
termination_by photos.length
decreasing_by
  all_goals exact Nat.lt_succ_of_le (List.length_filter_le _ _)

/-! ## Group processing and the whole run (`_process_duplicate_group`,
`handle_duplicates`) -/

/-- The run state threaded through group processing: the filesystem, the
mutable `processed_dirs` set, and the move log (`logging.info` entries for
successful moves, `logging.error` entries for failed ones). -/
structure RunState where
  fs : List String
  processed_dirs : List String
  movedLog : List (String × String)
  errorLog : List String
deriving DecidableEq

/-- `photo.path.parent / f"{photo.path.parent.name}重複"`. -/
def duplicateDir (p : PhotoInfo) : String :=
  p.parentPath ++ "/" ++ p.parentName ++ "重複"

/-- The preferred destination: the original filename inside `dir`. -/
def destName (p : PhotoInfo) (dir : String) : String :=
  dir ++ "/" ++ p.stem ++ p.ext

/-- The suffixed destination `f"{stem}({counter}){suffix}"` inside `dir`. -/
def numberedDest (p : PhotoInfo) (dir : String) (c : Nat) : String :=
  dir ++ "/" ++ p.stem ++ "(" ++ decRepr c ++ ")" ++ p.ext

/-- The `while new_path.exists()` counter loop.  The Python loop is
unbounded; it terminates because only finitely many names are occupied, so
we run it on fuel `fs.length + 1`, which `searchDest_finds` proves is never
exhausted (of `fs.length + 1` pairwise distinct candidate names at most
`fs.length` can be occupied). -/
def searchDest (fs : List String) (p : PhotoInfo) (dir : String) :
    Nat → Nat → String
  | 0, c => numberedDest p dir c
  | fuel + 1, c =>
    if fs.contains (numberedDest p dir c) then searchDest fs p dir fuel (c + 1)
    else numberedDest p dir c

/-- Destination resolution of `_process_duplicate_group`: the original
filename if free, else the first free numbered name, counting from 1. -/
def resolveDest (fs : List String) (p : PhotoInfo) : String :=
  let dir := duplicateDir p
  let base := destName p dir
  if fs.contains base then searchDest fs p dir (fs.length + 1) 1 else base

/-- The per-photo body of the move loop: resolve the destination, attempt
the move (`try`/`except`), and add the holding directory to
`processed_dirs` unconditionally — in the source that line sits after the
`except` handler, so it runs whether or not the move succeeded. -/
def processOne (moveOk : String → Bool) (st : RunState) (p : PhotoInfo) : RunState :=
  let dir := duplicateDir p
  let dst := resolveDest st.fs p
  let st1 : RunState :=
    if st.fs.contains p.path && moveOk p.path then
      ⟨dst :: st.fs.erase p.path, st.processed_dirs,
        st.movedLog ++ [(p.path, dst)], st.errorLog⟩
    else
      ⟨st.fs, st.processed_dirs, st.movedLog, st.errorLog ++ [p.path]⟩
  ⟨st1.fs, st1.processed_dirs.insert dir, st1.movedLog, st1.errorLog⟩

/-- `_process_duplicate_group`: sort the group, keep the first record,
run the move loop over the rest. -/
def process_duplicate_group (moveOk : String → Bool) (photos : List PhotoInfo)
    (st : RunState) : RunState :=
  (sort_photos_by_date_and_name photos).tail.foldl (processOne moveOk) st

/-- `all_photos` of the similarity branch: every bucket's members in dict
order. -/
def all_photos_of (m : List (String × List PhotoInfo)) : List PhotoInfo :=
  (m.map (fun kv => kv.2)).flatten

/-- The groups `handle_duplicates` processes: in exact mode the MD5 buckets
with more than one member, otherwise the similarity groups over
`all_photos`. -/
def duplicateGroupsRun (exactOnly : Bool) (t : ℚ)
    (m : List (String × List PhotoInfo)) : List (List PhotoInfo) :=
  if exactOnly then (m.filter (fun kv => kv.2.length > 1)).map (fun kv => kv.2)
  else find_similar_images t (all_photos_of m)

/-- `handle_duplicates`: scan, group, process every group in order starting
from an empty `processed_dirs` set.  The source returns `processed_dirs`;
the model returns the whole final state. -/
def handle_duplicates (moveOk : String → Bool) (exactOnly : Bool) (t : ℚ)
    (hashFn : List Nat → String) (files : List ScanFile) (fs0 : List String) :
    RunState :=
  let m := get_photo_files hashFn files
  (duplicateGroupsRun exactOnly t m).foldl
    (fun st g => process_duplicate_group moveOk g st) ⟨fs0, [], [], []⟩

/-- The records the scan produces, in scan order: one `PhotoInfo` per file
that passes the extension filter and whose per-file processing does not
raise.  (A derived view of `get_photo_files`, used to characterise it.) -/
def validPhotos (hashFn : List Nat → String) (files : List ScanFile) :
    List PhotoInfo :=
  (files.filter (fun f => photo_extensions.contains (strLower f.ext) &&
    !f.readError)).map (mkPhotoInfo hashFn)

/-- Folding bucket insertion over a list of photos, keyed by MD5 digest.
(A derived view used to characterise `get_photo_files` and the first loop
of `find_similar_images`.) -/
def foldInsert (ps : List PhotoInfo) (m0 : List (String × List PhotoInfo)) :
    List (String × List PhotoInfo) :=
  ps.foldl (fun m p => insertAssoc m p.hash_value p) m0

/-! ## Bit-level lemmas -/

theorem natBits_zero : natBits 0 = [] := by
  rw [natBits]
  simp

theorem natBits_pos (n : Nat) (h : n ≠ 0) :
    natBits n = natBits (n / 2) ++ [decide (n % 2 = 1)] := by
  rw [natBits]
  simp [h]

theorem natBits_length_le (w : Nat) : ∀ n, n < 2 ^ w → (natBits n).length ≤ w := by
  induction w with
  | zero =>
    intro n hn
    interval_cases n
    simp [natBits_zero]
  | succ w ih =>
    intro n hn
    by_cases h : n = 0
    · simp [h, natBits_zero]
    · rw [natBits_pos n h]
      have hdiv : n / 2 < 2 ^ w := by
        have h2 : (2 : Nat) ^ (w + 1) = 2 ^ w * 2 := by ring
        omega
      simp only [List.length_append, List.length_cons, List.length_nil]
      have := ih (n / 2) hdiv
      omega

theorem zfill_natBits (w : Nat) :
    ∀ n, n < 2 ^ w →
      List.replicate (w - (natBits n).length) false ++ natBits n = bitsBE w n := by
  induction w with
  | zero =>
    intro n hn
    interval_cases n
    simp [natBits_zero, bitsBE]
  | succ w ih =>
    intro n hn
    by_cases h : n = 0
    · subst h
      simp only [natBits_zero, List.append_nil, List.length_nil, Nat.sub_zero, bitsBE]
      rw [List.map_congr_left (g := fun _ => false)
        (by intro i _; exact Nat.testBit_lt_two_pow (Nat.pos_of_ne_zero (by positivity)))]
      simp
    · have hdiv : n / 2 < 2 ^ w := by
        have h2 : (2 : Nat) ^ (w + 1) = 2 ^ w * 2 := by ring
        omega
      have hlen : (natBits (n / 2)).length ≤ w := natBits_length_le w _ hdiv
      rw [natBits_pos n h]
      have harith : w + 1 - ((natBits (n / 2)).length + 1) = w - (natBits (n / 2)).length := by
        omega
      rw [List.length_append, List.length_cons, List.length_nil, Nat.zero_add, harith,
        ← List.append_assoc, ih (n / 2) hdiv]
      show bitsBE w (n / 2) ++ [decide (n % 2 = 1)] = bitsBE (w + 1) n
      unfold bitsBE
      rw [List.range_succ, List.map_append]
      congr 1
      · apply List.map_congr_left
        intro i hi
        have hi' : i < w := List.mem_range.mp hi
        have : w + 1 - 1 - i = (w - 1 - i) + 1 := by omega
        rw [this, Nat.testBit_add_one]
      · simp

theorem zfill64_binRepr (n : Nat) (hn : n < 2 ^ 64) :
    zfill64 (binRepr n) = bitsBE 64 n := by
  by_cases h : n = 0
  · subst h
    show zfill64 [false] = bitsBE 64 0
    unfold zfill64 bitsBE
    rw [List.map_congr_left (g := fun _ => false)
      (by intro i _; exact Nat.testBit_lt_two_pow (Nat.pos_of_ne_zero (by positivity)))]
    simp [List.replicate_succ' 63]
  · unfold zfill64
    rw [binRepr, if_neg h]
    exact zfill_natBits 64 n hn

theorem map_sub_range (w : Nat) :
    (List.range w).map (fun i => w - 1 - i) = (List.range w).reverse := by
  induction w with
  | zero => simp
  | succ w ih =>
    have hr : (List.range (w + 1)).reverse = w :: (List.range w).reverse := by
      rw [List.range_succ]
      simp
    rw [hr, List.range_succ_eq_map, List.map_cons, List.map_map, ← ih]
    congr 1
    apply List.map_congr_left
    intro i _
    show w + 1 - 1 - Nat.succ i = w - 1 - i
    omega

/-- The mismatch count computed by `calculate_similarity` on the padded
binary strings is the mathematical Hamming distance of the two values. -/
theorem hamming_eq_hammingBits (a b : Nat) (ha : a < 2 ^ 64) (hb : b < 2 ^ 64) :
    ((zfill64 (binRepr a)).zip (zfill64 (binRepr b))).countP
      (fun p => decide (p.1 ≠ p.2)) = hammingBits a b := by
  rw [zfill64_binRepr a ha, zfill64_binRepr b hb]
  unfold bitsBE hammingBits
  rw [List.zip_map', List.countP_map]
  have reindex :
      (List.range 64).countP
        ((fun p : Bool × Bool => decide (p.1 ≠ p.2)) ∘
          (fun i => (a.testBit (64 - 1 - i), b.testBit (64 - 1 - i))))
      = ((List.range 64).map (fun i => 64 - 1 - i)).countP
        (fun j => decide (a.testBit j ≠ b.testBit j)) := by
    rw [List.countP_map]
    rfl
  rw [reindex, map_sub_range 64, List.countP_reverse]

theorem hammingBits_le (a b : Nat) : hammingBits a b ≤ 64 := by
  unfold hammingBits
  have h := List.countP_le_length
    (p := fun i => decide (a.testBit i ≠ b.testBit i)) (l := List.range 64)
  simpa using h

theorem hexDigitVal_le (c : Char) : hexDigitVal c ≤ 15 := by
  unfold hexDigitVal
  split <;> [omega; split] <;> [omega; skip]
  split <;> omega

theorem hexToNat_foldl_lt (l : List Char) :
    ∀ acc, l.foldl (fun acc c => 16 * acc + hexDigitVal c) acc < (acc + 1) * 16 ^ l.length := by
  induction l with
  | nil => intro acc; simp
  | cons c l ih =>
    intro acc
    have h1 := ih (16 * acc + hexDigitVal c)
    have hd := hexDigitVal_le c
    calc (c :: l).foldl (fun acc c => 16 * acc + hexDigitVal c) acc
        = l.foldl (fun acc c => 16 * acc + hexDigitVal c) (16 * acc + hexDigitVal c) := rfl
      _ < (16 * acc + hexDigitVal c + 1) * 16 ^ l.length := h1
      _ ≤ ((acc + 1) * 16) * 16 ^ l.length := by nlinarith
      _ = (acc + 1) * 16 ^ (l.length + 1) := by ring

theorem hexToNat_lt (s : String) (hs : s.length ≤ 16) : hexToNat s < 2 ^ 64 := by
  have h := hexToNat_foldl_lt s.data 0
  have hlen : s.data.length = s.length := rfl
  have hpow : (16 : Nat) ^ s.data.length ≤ 16 ^ 16 :=
    Nat.pow_le_pow_right (by norm_num) (by omega)
  have : (16 : Nat) ^ 16 = 2 ^ 64 := by norm_num
  unfold hexToNat
  omega

/-- C6: for non-null fingerprints (the program's fingerprints are nonempty
hex strings of at most 16 digits, hence 64-bit values), `calculate_similarity`
returns `1 - hamming/64` where `hamming` is the bit-mismatch count of the two
64-bit fingerprint values, and the result lies in `[0, 1]`; if either input
is null it returns `0.0`. -/
theorem similarity_normalized_hamming (s1 s2 : String)
    (h1 : s1.isEmpty = false) (h2 : s2.isEmpty = false)
    (hl1 : s1.length ≤ 16) (hl2 : s2.length ≤ 16) :
    calculate_similarity (some s1) (some s2)
      = 1 - (hammingBits (hexToNat s1) (hexToNat s2) : ℚ) / 64
    ∧ 0 ≤ calculate_similarity (some s1) (some s2)
    ∧ calculate_similarity (some s1) (some s2) ≤ 1
    ∧ (∀ h, calculate_similarity none h = 0 ∧ calculate_similarity h none = 0) := by
  have hfalsy : (strFalsy (some s1) || strFalsy (some s2)) = false := by
    show (s1.isEmpty || s2.isEmpty) = false
    rw [h1, h2]
    rfl
  have heq : calculate_similarity (some s1) (some s2)
      = 1 - (hammingBits (hexToNat s1) (hexToNat s2) : ℚ) / 64 := by
    unfold calculate_similarity
    rw [hfalsy]
    simp only [Bool.false_eq_true, if_false, Option.getD_some]
    rw [hamming_eq_hammingBits (hexToNat s1) (hexToNat s2)
      (hexToNat_lt s1 hl1) (hexToNat_lt s2 hl2)]
  refine ⟨heq, ?_, ?_, ?_⟩
  · rw [heq]
    have hle : (hammingBits (hexToNat s1) (hexToNat s2) : ℚ) ≤ 64 := by
      exact_mod_cast hammingBits_le (hexToNat s1) (hexToNat s2)
    have h64 : (0 : ℚ) < 64 := by norm_num
    rw [sub_nonneg, div_le_one h64]
    exact hle
  · rw [heq]
    have hpos : (0 : ℚ) ≤ (hammingBits (hexToNat s1) (hexToNat s2) : ℚ) / 64 := by
      positivity
    linarith
  · intro h
    constructor
    · unfold calculate_similarity
      rfl
    · unfold calculate_similarity
      have : (strFalsy h || strFalsy none) = true := by
        simp [strFalsy]
      rw [this]
      rfl

theorem similarity_normalized_hamming_witness :
    calculate_similarity (some "00") (some "ff")
      = 1 - (hammingBits (hexToNat "00") (hexToNat "ff") : ℚ) / 64
    ∧ 0 ≤ calculate_similarity (some "00") (some "ff")
    ∧ calculate_similarity (some "00") (some "ff") ≤ 1
    ∧ (∀ h, calculate_similarity none h = 0 ∧ calculate_similarity h none = 0) :=
  similarity_normalized_hamming "00" "ff" (by decide) (by decide) (by decide) (by decide)

/-! ## Sorting lemmas -/

theorem photoLE_trans (a b c : PhotoInfo) (h1 : photoLE a b = true)
    (h2 : photoLE b c = true) : photoLE a c = true := by
  unfold photoLE keyLE at h1 h2 ⊢
  simp only [Bool.or_eq_true, Bool.and_eq_true, decide_eq_true_eq] at h1 h2 ⊢
  rcases h1 with h1 | ⟨h1e, h1l⟩ <;> rcases h2 with h2 | ⟨h2e, h2l⟩
  · exact Or.inl (lt_trans h1 h2)
  · exact Or.inl (h2e ▸ h1)
  · exact Or.inl (h1e ▸ h2)
  · exact Or.inr ⟨h1e.trans h2e, le_trans h1l h2l⟩

theorem photoLE_total (a b : PhotoInfo) : (photoLE a b || photoLE b a) = true := by
  unfold photoLE keyLE
  simp only [Bool.or_eq_true, Bool.and_eq_true, decide_eq_true_eq]
  rcases lt_trichotomy (compareKey a).1 (compareKey b).1 with h | h | h
  · exact Or.inl (Or.inl h)
  · rcases Nat.le_total (compareKey a).2 (compareKey b).2 with h2 | h2
    · exact Or.inl (Or.inr ⟨h, h2⟩)
    · exact Or.inr (Or.inr ⟨h.symm, h2⟩)
  · exact Or.inr (Or.inl h)

theorem keyLe_of_photoLE {a b : PhotoInfo} (h : photoLE a b = true) : KeyLe a b := by
  unfold photoLE keyLE compareKey at h
  simp only [Bool.or_eq_true, Bool.and_eq_true, decide_eq_true_eq] at h
  exact h

theorem keyLe_refl (a : PhotoInfo) : KeyLe a a :=
  Or.inr ⟨rfl, le_refl _⟩

/-- C1: the kept record — `sorted_photos[0]`, the one the move loop leaves
in place — is a minimum of the group under the key (effective date,
stem length), where the effective date falls back from `shoot_date` to
`modify_date` to the maximum date; all other members (`rest`) are exactly
the ones the move loop runs over. -/
theorem keeper_is_group_minimum (photos : List PhotoInfo) (k : PhotoInfo)
    (rest : List PhotoInfo)
    (h : sort_photos_by_date_and_name photos = k :: rest) :
    k ∈ photos ∧ (∀ q ∈ photos, KeyLe k q) ∧
      ∀ mv st, process_duplicate_group mv photos st = rest.foldl (processOne mv) st := by
  have hperm : (k :: rest).Perm photos := by
    rw [← h]
    exact List.mergeSort_perm photos photoLE
  have hpair : (k :: rest).Pairwise (fun a b => photoLE a b = true) := by
    rw [← h]
    exact List.sorted_mergeSort photoLE_trans photoLE_total photos
  refine ⟨hperm.subset (List.mem_cons_self k rest), ?_, ?_⟩
  · intro q hq
    have hq' : q ∈ k :: rest := hperm.mem_iff.mpr hq
    rcases List.mem_cons.mp hq' with rfl | hq''
    · exact keyLe_refl q
    · exact keyLe_of_photoLE ((List.pairwise_cons.mp hpair).1 q hq'')
  · intro mv st
    unfold process_duplicate_group
    rw [h]
    rfl

theorem keeper_is_group_minimum_witness :
    (⟨"d", "d", "a", ".jpg", "h1", none, some 1, some 2⟩ : PhotoInfo) ∈
      [(⟨"d", "d", "a", ".jpg", "h1", none, some 1, some 2⟩ : PhotoInfo),
        ⟨"d", "d", "bb", ".jpg", "h2", none, some 5, some 2⟩]
    ∧ (∀ q ∈ [(⟨"d", "d", "a", ".jpg", "h1", none, some 1, some 2⟩ : PhotoInfo),
        ⟨"d", "d", "bb", ".jpg", "h2", none, some 5, some 2⟩],
        KeyLe ⟨"d", "d", "a", ".jpg", "h1", none, some 1, some 2⟩ q)
    ∧ ∀ mv st, process_duplicate_group mv
        [(⟨"d", "d", "a", ".jpg", "h1", none, some 1, some 2⟩ : PhotoInfo),
          ⟨"d", "d", "bb", ".jpg", "h2", none, some 5, some 2⟩] st
        = [(⟨"d", "d", "bb", ".jpg", "h2", none, some 5, some 2⟩ : PhotoInfo)].foldl
            (processOne mv) st :=
  keeper_is_group_minimum _ _ _ (List.mergeSort_of_sorted (by decide))

/-! ## Clustering lemmas -/

theorem contains_eq_decide (l : List String) (x : String) :
    l.contains x = decide (x ∈ l) := by
  by_cases h : x ∈ l
  · rw [decide_eq_true h]
    exact List.contains_iff_exists_mem_beq.mpr ⟨x, h, by simp⟩
  · rw [decide_eq_false h, Bool.eq_false_iff]
    intro hc
    obtain ⟨y, hy, hxy⟩ := List.contains_iff_exists_mem_beq.mp hc
    exact h ((eq_of_beq hxy) ▸ hy)

theorem strFalsy_of_sim_pos {h1 h2 : Option String}
    (h : 0 < calculate_similarity h1 h2) :
    strFalsy h1 = false ∧ strFalsy h2 = false := by
  cases hb : (strFalsy h1 || strFalsy h2) with
  | false => exact Bool.or_eq_false_iff.mp hb
  | true =>
    exfalso
    unfold calculate_similarity at h
    rw [hb] at h
    simp at h

theorem simFold_structure (t : ℚ) (seed : PhotoInfo) (rest : List PhotoInfo) :
    ∀ (g0 : List PhotoInfo) (pr0 : List String),
      ∃ added, (rest.foldl (simStep t seed) (g0, pr0)).1 = g0 ++ added
        ∧ ∀ q ∈ added,
            q ∈ rest ∧ t ≤ calculate_similarity seed.image_hash q.image_hash := by
  induction rest with
  | nil =>
    intro g0 pr0
    exact ⟨[], by simp, by simp⟩
  | cons q rest ih =>
    intro g0 pr0
    rw [List.foldl_cons]
    by_cases hg : (!pr0.contains q.path &&
        decide (t ≤ calculate_similarity seed.image_hash q.image_hash)) = true
    · have hstep : simStep t seed (g0, pr0) q = (g0 ++ [q], pr0.insert q.path) := by
        unfold simStep
        rw [if_pos hg]
      rw [hstep]
      obtain ⟨added, heq, hall⟩ := ih (g0 ++ [q]) (pr0.insert q.path)
      refine ⟨q :: added, ?_, ?_⟩
      · rw [heq, List.append_assoc]
        rfl
      · intro x hx
        rcases List.mem_cons.mp hx with rfl | hx'
        · refine ⟨List.mem_cons_self _ _, ?_⟩
          have hg2 := hg
          simp only [Bool.and_eq_true] at hg2
          exact of_decide_eq_true hg2.2
        · obtain ⟨hmem, hsim⟩ := hall x hx'
          exact ⟨List.mem_cons_of_mem q hmem, hsim⟩
    · have hstep : simStep t seed (g0, pr0) q = (g0, pr0) := by
        unfold simStep
        rw [if_neg hg]
      rw [hstep]
      obtain ⟨added, heq, hall⟩ := ih g0 pr0
      exact ⟨added, heq, fun x hx =>
        ⟨List.mem_cons_of_mem q (hall x hx).1, (hall x hx).2⟩⟩

theorem findSimilarLoop_group_structure (t : ℚ) (l : List PhotoInfo) :
    ∀ (pr : List String) (g : List PhotoInfo), g ∈ findSimilarLoop t l pr →
      ∃ seed tail0, g = seed :: tail0 ∧ tail0 ≠ [] ∧ seed ∈ l
        ∧ ∀ q ∈ tail0,
            q ∈ l ∧ t ≤ calculate_similarity seed.image_hash q.image_hash := by
  induction l with
  | nil =>
    intro pr g hg
    simp [findSimilarLoop] at hg
  | cons p1 rest ih =>
    intro pr g hg
    unfold findSimilarLoop at hg
    by_cases hc : pr.contains p1.path
    · rw [if_pos hc] at hg
      obtain ⟨seed, tail0, rfl, hne, hseed, htail⟩ := ih pr g hg
      exact ⟨seed, tail0, rfl, hne, List.mem_cons_of_mem p1 hseed,
        fun q hq => ⟨List.mem_cons_of_mem p1 (htail q hq).1, (htail q hq).2⟩⟩
    · rw [if_neg hc] at hg
      obtain ⟨added, heq, hall⟩ :=
        simFold_structure t p1 rest [p1] (pr.insert p1.path)
      by_cases hlen :
          (rest.foldl (simStep t p1) ([p1], pr.insert p1.path)).1.length > 1
      · rw [if_pos hlen] at hg
        rcases List.mem_cons.mp hg with rfl | hg'
        · refine ⟨p1, added, by rw [heq]; rfl, ?_, List.mem_cons_self p1 rest, ?_⟩
          · intro habs
            rw [heq, habs] at hlen
            simp at hlen
          · intro q hq
            obtain ⟨hmem, hsim⟩ := hall q hq
            exact ⟨List.mem_cons_of_mem p1 hmem, hsim⟩
        · obtain ⟨seed, tail0, rfl, hne, hseed, htail⟩ := ih _ _ hg'
          exact ⟨seed, tail0, rfl, hne, List.mem_cons_of_mem p1 hseed,
            fun q hq => ⟨List.mem_cons_of_mem p1 (htail q hq).1, (htail q hq).2⟩⟩
      · rw [if_neg hlen] at hg
        obtain ⟨seed, tail0, rfl, hne, hseed, htail⟩ := ih _ _ hg
        exact ⟨seed, tail0, rfl, hne, List.mem_cons_of_mem p1 hseed,
          fun q hq => ⟨List.mem_cons_of_mem p1 (htail q hq).1, (htail q hq).2⟩⟩

theorem not_falsy_ne_none {h : Option String} (hf : strFalsy h = false) :
    h ≠ none := by
  intro hn
  rw [hn] at hf
  simp [strFalsy] at hf

/-- C3 (amended): for a strictly positive threshold, a record whose
perceptual fingerprint is null is never a member of an emitted similarity
group — similarity against a null fingerprint is 0, which only reaches a
threshold of exactly 0. -/
theorem null_fingerprint_never_grouped (t : ℚ) (ht : 0 < t)
    (photos : List PhotoInfo) :
    ∀ g ∈ find_similar_images t photos, ∀ p ∈ g, p.image_hash ≠ none := by
  intro g hg p hp
  obtain ⟨seed, tail0, rfl, hne, _, htail⟩ :=
    findSimilarLoop_group_structure t (unique_photos photos) [] g hg
  obtain ⟨q0, hq0⟩ := List.exists_mem_of_ne_nil tail0 hne
  have hpos0 : 0 < calculate_similarity seed.image_hash q0.image_hash :=
    lt_of_lt_of_le ht (htail q0 hq0).2
  rcases List.mem_cons.mp hp with rfl | hp'
  · exact not_falsy_ne_none (strFalsy_of_sim_pos hpos0).1
  · have hpos : 0 < calculate_similarity seed.image_hash p.image_hash :=
      lt_of_lt_of_le ht (htail p hp').2
    exact not_falsy_ne_none (strFalsy_of_sim_pos hpos).2

theorem null_fingerprint_never_grouped_witness :
    0 < (1 / 2 : ℚ)
    ∧ ∀ g ∈ find_similar_images (1 / 2)
        [(⟨"d", "d", "a", ".jpg", "h1", none, some 1, some 1⟩ : PhotoInfo),
          ⟨"d", "d", "b", ".jpg", "h2", some "ff", some 1, some 1⟩],
        ∀ p ∈ g, p.image_hash ≠ none :=
  ⟨by norm_num, null_fingerprint_never_grouped (1 / 2) (by norm_num) _⟩

/-- At threshold 0 — inside the claimed range `[0, 0.99]` — a record with a
null perceptual fingerprint is grouped: similarity against it is 0 and
`0 ≥ 0` holds, so the claim as stated is false. -/
theorem null_fingerprint_grouped_at_zero :
    find_similar_images 0
        [(⟨"d", "d", "a", ".jpg", "h1", none, some 1, some 1⟩ : PhotoInfo),
          ⟨"d", "d", "b", ".jpg", "h2", some "ff", some 1, some 1⟩]
      = [[⟨"d", "d", "a", ".jpg", "h1", none, some 1, some 1⟩,
          ⟨"d", "d", "b", ".jpg", "h2", some "ff", some 1, some 1⟩]]
    ∧ (⟨"d", "d", "a", ".jpg", "h1", none, some 1, some 1⟩ : PhotoInfo).image_hash
        = none := by
  constructor
  · decide
  · rfl

theorem greedyCluster_nil (t : ℚ) : greedyCluster t [] = [] := by
  rw [greedyCluster]

theorem greedyCluster_cons (t : ℚ) (p : PhotoInfo) (l : List PhotoInfo) :
    greedyCluster t (p :: l) =
      if (l.filter (fun q =>
          decide (t ≤ calculate_similarity p.image_hash q.image_hash))).isEmpty then
        greedyCluster t (l.filter (fun q =>
          !decide (t ≤ calculate_similarity p.image_hash q.image_hash)))
      else
        (p :: l.filter (fun q =>
            decide (t ≤ calculate_similarity p.image_hash q.image_hash))) ::
          greedyCluster t (l.filter (fun q =>
            !decide (t ≤ calculate_similarity p.image_hash q.image_hash))) := by
  rw [greedyCluster]

theorem findSimilarLoop_cons (t : ℚ) (p1 : PhotoInfo) (rest : List PhotoInfo)
    (pr : List String) :
    findSimilarLoop t (p1 :: rest) pr =
      if pr.contains p1.path then findSimilarLoop t rest pr
      else if (rest.foldl (simStep t p1) ([p1], pr.insert p1.path)).1.length > 1 then
        (rest.foldl (simStep t p1) ([p1], pr.insert p1.path)).1 ::
          findSimilarLoop t rest (rest.foldl (simStep t p1) ([p1], pr.insert p1.path)).2
      else findSimilarLoop t rest
        (rest.foldl (simStep t p1) ([p1], pr.insert p1.path)).2 := rfl

theorem mem_map_path_filter {f : PhotoInfo → Bool} {rest : List PhotoInfo}
    (hrest : (rest.map PhotoInfo.path).Nodup) {q : PhotoInfo} (hq : q ∈ rest) :
    q.path ∈ (rest.filter f).map PhotoInfo.path ↔ f q = true := by
  constructor
  · intro h
    obtain ⟨q1, hq1, hpath⟩ := List.mem_map.mp h
    obtain ⟨hq1r, hf⟩ := List.mem_filter.mp hq1
    have heq : q1 = q := List.inj_on_of_nodup_map hrest hq1r hq hpath
    exact heq ▸ hf
  · intro hf
    exact List.mem_map_of_mem _ (List.mem_filter.mpr ⟨hq, hf⟩)

theorem simFold_char (t : ℚ) (seed : PhotoInfo) (rest : List PhotoInfo) :
    ∀ (g0 : List PhotoInfo) (pr0 : List String),
      (rest.map PhotoInfo.path).Nodup →
      (rest.foldl (simStep t seed) (g0, pr0)).1
        = g0 ++ rest.filter (fun q => !pr0.contains q.path &&
            decide (t ≤ calculate_similarity seed.image_hash q.image_hash))
      ∧ ∀ x, x ∈ (rest.foldl (simStep t seed) (g0, pr0)).2 ↔
          x ∈ pr0 ∨ x ∈ (rest.filter (fun q => !pr0.contains q.path &&
            decide (t ≤ calculate_similarity seed.image_hash q.image_hash))).map
              PhotoInfo.path := by
  induction rest with
  | nil =>
    intro g0 pr0 _
    exact ⟨by simp, by simp⟩
  | cons q rest ih =>
    intro g0 pr0 hnd
    have hqp : q.path ∉ rest.map PhotoInfo.path := by
      have := List.nodup_cons.mp hnd
      exact this.1
    have hrest : (rest.map PhotoInfo.path).Nodup := (List.nodup_cons.mp hnd).2
    rw [List.foldl_cons]
    have hcongr : ∀ x ∈ rest,
        (!(pr0.insert q.path).contains x.path &&
          decide (t ≤ calculate_similarity seed.image_hash x.image_hash))
        = (!pr0.contains x.path &&
          decide (t ≤ calculate_similarity seed.image_hash x.image_hash)) := by
      intro x hx
      have hne : x.path ≠ q.path := by
        intro h
        exact hqp (h ▸ List.mem_map_of_mem PhotoInfo.path hx)
      rw [contains_eq_decide, contains_eq_decide]
      congr 1
      simp [List.mem_insert_iff, hne]
    by_cases hg : (!pr0.contains q.path &&
        decide (t ≤ calculate_similarity seed.image_hash q.image_hash)) = true
    · have hstep : simStep t seed (g0, pr0) q = (g0 ++ [q], pr0.insert q.path) := by
        unfold simStep
        rw [if_pos hg]
      rw [hstep]
      obtain ⟨h1, h2⟩ := ih (g0 ++ [q]) (pr0.insert q.path) hrest
      rw [List.filter_congr hcongr] at h1 h2
      constructor
      · rw [h1, List.filter_cons, if_pos hg, List.append_assoc]
        rfl
      · intro x
        rw [h2 x, List.filter_cons, if_pos hg, List.map_cons, List.mem_cons,
          List.mem_insert_iff]
        tauto
    · have hstep : simStep t seed (g0, pr0) q = (g0, pr0) := by
        unfold simStep
        rw [if_neg hg]
      rw [hstep]
      obtain ⟨h1, h2⟩ := ih g0 pr0 hrest
      rw [List.filter_cons, if_neg hg]
      exact ⟨h1, h2⟩

theorem findSimilarLoop_eq_greedy (t : ℚ) (l : List PhotoInfo) :
    ∀ pr : List String, (l.map PhotoInfo.path).Nodup →
      findSimilarLoop t l pr
        = greedyCluster t (l.filter (fun p => !pr.contains p.path)) := by
  induction l with
  | nil =>
    intro pr _
    simp [findSimilarLoop, greedyCluster_nil]
  | cons p1 rest ih =>
    intro pr hnd
    have hqp : p1.path ∉ rest.map PhotoInfo.path := (List.nodup_cons.mp hnd).1
    have hrest : (rest.map PhotoInfo.path).Nodup := (List.nodup_cons.mp hnd).2
    rw [findSimilarLoop_cons]
    by_cases hc : pr.contains p1.path = true
    · have hmem : p1.path ∈ pr := by
        rw [contains_eq_decide] at hc
        exact of_decide_eq_true hc
      rw [if_pos hc, List.filter_cons, if_neg (by simp [hmem]), ih pr hrest]
    · rw [if_neg hc]
      obtain ⟨h1, h2⟩ := simFold_char t p1 rest [p1] (pr.insert p1.path) hrest
      have hcongr : ∀ x ∈ rest,
          (!(pr.insert p1.path).contains x.path &&
            decide (t ≤ calculate_similarity p1.image_hash x.image_hash))
          = (!pr.contains x.path &&
            decide (t ≤ calculate_similarity p1.image_hash x.image_hash)) := by
        intro x hx
        have hne : x.path ≠ p1.path := by
          intro h
          exact hqp (h ▸ List.mem_map_of_mem PhotoInfo.path hx)
        rw [contains_eq_decide, contains_eq_decide]
        congr 1
        simp [List.mem_insert_iff, hne]
      rw [List.filter_congr hcongr] at h1 h2
      set matched := rest.filter (fun q => !pr.contains q.path &&
        decide (t ≤ calculate_similarity p1.image_hash q.image_hash)) with hmatched
      -- the recursive call sees exactly the unprocessed non-matched photos
      have hrec : findSimilarLoop t rest
          (rest.foldl (simStep t p1) ([p1], pr.insert p1.path)).2
          = greedyCluster t (rest.filter (fun q => !pr.contains q.path &&
              !decide (t ≤ calculate_similarity p1.image_hash q.image_hash))) := by
        rw [ih _ hrest]
        congr 1
        apply List.filter_congr
        intro x hx
        have hx2 := h2 x.path
        have hmem : x.path ∈ (rest.foldl (simStep t p1) ([p1], pr.insert p1.path)).2
            ↔ x.path ∈ pr ∨ (!pr.contains x.path &&
              decide (t ≤ calculate_similarity p1.image_hash x.image_hash)) = true := by
          rw [hx2, List.mem_insert_iff]
          constructor
          · rintro ((h | h) | h)
            · exact absurd (h ▸ List.mem_map_of_mem PhotoInfo.path hx) hqp
            · exact Or.inl h
            · exact Or.inr ((mem_map_path_filter hrest hx).mp h)
          · rintro (h | h)
            · exact Or.inl (Or.inr h)
            · exact Or.inr ((mem_map_path_filter hrest hx).mpr h)
        rw [contains_eq_decide, contains_eq_decide]
        by_cases hp : x.path ∈ pr <;>
          by_cases hs : t ≤ calculate_similarity p1.image_hash x.image_hash <;>
          simp [hp, hs, hmem]
      -- the current group is the seed together with the matched photos
      have hgroup : (rest.foldl (simStep t p1) ([p1], pr.insert p1.path)).1
          = p1 :: matched := by
        rw [h1]
        rfl
      have hnmem : p1.path ∉ pr := by
        intro hmem
        exact hc (by rw [contains_eq_decide]; exact decide_eq_true hmem)
      have hfc : (p1 :: rest).filter (fun p => !pr.contains p.path)
          = p1 :: rest.filter (fun p => !pr.contains p.path) := by
        rw [List.filter_cons, if_pos]
        rw [contains_eq_decide, decide_eq_false hnmem]
        rfl
      have hmfil : (rest.filter (fun p => !pr.contains p.path)).filter
          (fun q => decide (t ≤ calculate_similarity p1.image_hash q.image_hash))
          = matched := by
        rw [List.filter_filter, hmatched]
        apply List.filter_congr
        intro x _
        rw [Bool.and_comm]
      have hrfil : (rest.filter (fun p => !pr.contains p.path)).filter
          (fun q => !decide (t ≤ calculate_similarity p1.image_hash q.image_hash))
          = rest.filter (fun q => !pr.contains q.path &&
              !decide (t ≤ calculate_similarity p1.image_hash q.image_hash)) := by
        rw [List.filter_filter]
        apply List.filter_congr
        intro x _
        rw [Bool.and_comm]
      rw [hfc, greedyCluster_cons, hmfil, hrfil, ← hrec, hgroup]
      by_cases hm : matched.isEmpty = true
      · have hmnil : matched = [] := List.isEmpty_iff.mp hm
        rw [hmnil]
        simp
      · have hmne : matched ≠ [] := fun h => hm (by rw [h]; rfl)
        have hlen : 0 < matched.length := List.length_pos.mpr hmne
        rw [if_pos (by simp only [List.length_cons]; omega), if_neg hm]

theorem find_similar_eq_greedy (t : ℚ) (photos : List PhotoInfo)
    (hnd : (photos.map PhotoInfo.path).Nodup) :
    find_similar_images t photos = greedyCluster t (unique_photos photos) := by
  unfold find_similar_images
  have hnd2 : ((unique_photos photos).map PhotoInfo.path).Nodup := by
    unfold unique_photos
    exact ((List.filter_sublist photos).map PhotoInfo.path).nodup hnd
  rw [findSimilarLoop_eq_greedy t _ [] hnd2]
  congr 1
  have hall : ∀ x ∈ unique_photos photos,
      (!(([] : List String).contains x.path)) = true := by
    intro x _
    rfl
  calc (unique_photos photos).filter (fun p => !(([] : List String).contains p.path))
      = (unique_photos photos).filter (fun _ => true) := List.filter_congr (by
        intro x hx
        exact hall x hx)
    _ = unique_photos photos := List.filter_true _

/-- C4: over the similarity pool (`unique_photos`, the records not excluded
as exact duplicates, in scan order), `find_similar_images` computes exactly
the spec's greedy single-link clustering: each unclustered record seeds a
new group, each later unclustered record joins iff its similarity to the
group's seed reaches the threshold, a record once added is never
reconsidered, and groups of final size 1 are discarded.  (Paths are unique
identities within a scan, hence the no-duplicate-paths hypothesis.) -/
theorem find_similar_is_greedy_clustering (t : ℚ) (photos : List PhotoInfo)
    (hnd : (photos.map PhotoInfo.path).Nodup) :
    find_similar_images t photos = greedyCluster t (unique_photos photos) :=
  find_similar_eq_greedy t photos hnd

theorem find_similar_is_greedy_clustering_witness :
    find_similar_images (1 / 2)
        [(⟨"d", "d", "a", ".jpg", "h1", some "00", some 1, some 1⟩ : PhotoInfo),
          ⟨"d", "d", "b", ".jpg", "h2", some "01", some 1, some 1⟩]
      = greedyCluster (1 / 2) (unique_photos
          [(⟨"d", "d", "a", ".jpg", "h1", some "00", some 1, some 1⟩ : PhotoInfo),
            ⟨"d", "d", "b", ".jpg", "h2", some "01", some 1, some 1⟩]) :=
  find_similar_is_greedy_clustering (1 / 2) _ (by decide)

/-! ## Association-list lemmas (`defaultdict` buckets) -/

theorem lookup_insert_self (m : List (String × List PhotoInfo)) (k : String)
    (v : PhotoInfo) :
    lookupAssoc (insertAssoc m k v) k = lookupAssoc m k ++ [v] := by
  induction m with
  | nil => simp [insertAssoc, lookupAssoc]
  | cons kv rest ih =>
    obtain ⟨k1, vs⟩ := kv
    by_cases h : k1 = k
    · subst h
      simp [insertAssoc, lookupAssoc]
    · simp only [insertAssoc, if_neg h, lookupAssoc, ih]

theorem lookup_insert_ne (m : List (String × List PhotoInfo)) (k : String)
    (v : PhotoInfo) (k2 : String) (h : k2 ≠ k) :
    lookupAssoc (insertAssoc m k v) k2 = lookupAssoc m k2 := by
  induction m with
  | nil =>
    show lookupAssoc [(k, [v])] k2 = lookupAssoc [] k2
    unfold lookupAssoc
    rw [if_neg (fun hh => h hh.symm)]
    rfl
  | cons kv rest ih =>
    obtain ⟨k1, vs⟩ := kv
    by_cases h1 : k1 = k
    · subst h1
      have hins : insertAssoc ((k1, vs) :: rest) k1 v = (k1, vs ++ [v]) :: rest := by
        unfold insertAssoc
        rw [if_pos rfl]
      rw [hins]
      simp only [lookupAssoc]
      rw [if_neg (fun hh => h hh.symm), if_neg (fun hh => h hh.symm)]
    · have hins : insertAssoc ((k1, vs) :: rest) k v
          = (k1, vs) :: insertAssoc rest k v := by
        show (if k1 = k then (k1, vs ++ [v]) :: rest
          else (k1, vs) :: insertAssoc rest k v) = _
        rw [if_neg h1]
      rw [hins]
      simp only [lookupAssoc]
      by_cases h2 : k1 = k2
      · rw [if_pos h2, if_pos h2]
      · rw [if_neg h2, if_neg h2]
        exact ih

theorem keys_insertAssoc (m : List (String × List PhotoInfo)) (k : String)
    (v : PhotoInfo) :
    (insertAssoc m k v).map Prod.fst
      = if k ∈ m.map Prod.fst then m.map Prod.fst else m.map Prod.fst ++ [k] := by
  induction m with
  | nil => simp [insertAssoc]
  | cons kv rest ih =>
    obtain ⟨k1, vs⟩ := kv
    by_cases h : k1 = k
    · subst h
      simp [insertAssoc]
    · simp only [insertAssoc, if_neg h, List.map_cons, ih, List.mem_cons]
      by_cases h2 : k ∈ rest.map Prod.fst
      · rw [if_pos h2, if_pos (Or.inr h2)]
      · rw [if_neg h2, if_neg (by
          rintro (hh | hh)
          · exact h hh.symm
          · exact h2 hh)]
        rfl

theorem nodup_keys_insertAssoc {m : List (String × List PhotoInfo)}
    (hnd : (m.map Prod.fst).Nodup) (k : String) (v : PhotoInfo) :
    ((insertAssoc m k v).map Prod.fst).Nodup := by
  rw [keys_insertAssoc]
  by_cases h : k ∈ m.map Prod.fst
  · rw [if_pos h]
    exact hnd
  · rw [if_neg h]
    simp [List.nodup_append, hnd, h]

theorem lookup_of_mem {m : List (String × List PhotoInfo)}
    (hnd : (m.map Prod.fst).Nodup) {k : String} {g : List PhotoInfo}
    (h : (k, g) ∈ m) : lookupAssoc m k = g := by
  induction m with
  | nil => cases h
  | cons kv rest ih =>
    obtain ⟨k1, vs⟩ := kv
    have hk1 : k1 ∉ rest.map Prod.fst := (List.nodup_cons.mp (by simpa using hnd)).1
    have hndr : (rest.map Prod.fst).Nodup := (List.nodup_cons.mp (by simpa using hnd)).2
    simp only [lookupAssoc]
    rcases List.mem_cons.mp h with heq | hmem
    · injection heq with h1 h2
      subst h1
      subst h2
      rw [if_pos rfl]
    · by_cases hkk : k1 = k
      · exfalso
        subst hkk
        exact hk1 (List.mem_map_of_mem Prod.fst hmem)
      · rw [if_neg hkk]
        exact ih hndr hmem

theorem bucket_inv_insertAssoc {m : List (String × List PhotoInfo)}
    (h : ∀ kv ∈ m, ∀ p ∈ kv.2, p.hash_value = kv.1) (v : PhotoInfo) :
    ∀ kv ∈ insertAssoc m v.hash_value v, ∀ p ∈ kv.2, p.hash_value = kv.1 := by
  induction m with
  | nil =>
    intro kv hkv p hp
    simp only [insertAssoc, List.mem_singleton] at hkv
    subst hkv
    simp only [List.mem_singleton] at hp
    subst hp
    rfl
  | cons kv1 rest ih =>
    obtain ⟨k1, vs⟩ := kv1
    intro kv hkv p hp
    by_cases he : k1 = v.hash_value
    · have hins : insertAssoc ((k1, vs) :: rest) v.hash_value v
          = (k1, vs ++ [v]) :: rest := by
        show (if k1 = v.hash_value then (k1, vs ++ [v]) :: rest
          else (k1, vs) :: insertAssoc rest v.hash_value v) = _
        rw [if_pos he]
      rw [hins] at hkv
      rcases List.mem_cons.mp hkv with heq | hmem
      · subst heq
        rcases List.mem_append.mp hp with hvs | hv
        · exact h (k1, vs) (List.mem_cons_self _ _) p hvs
        · simp only [List.mem_singleton] at hv
          subst hv
          exact he.symm
      · exact h kv (List.mem_cons_of_mem _ hmem) p hp
    · have hins : insertAssoc ((k1, vs) :: rest) v.hash_value v
          = (k1, vs) :: insertAssoc rest v.hash_value v := by
        show (if k1 = v.hash_value then (k1, vs ++ [v]) :: rest
          else (k1, vs) :: insertAssoc rest v.hash_value v) = _
        rw [if_neg he]
      rw [hins] at hkv
      rcases List.mem_cons.mp hkv with heq | hmem
      · subst heq
        exact h (k1, vs) (List.mem_cons_self _ _) p hp
      · exact ih (fun kv2 hkv2 => h kv2 (List.mem_cons_of_mem _ hkv2)) kv hmem p hp

theorem bucket_inv_foldInsert (ps : List PhotoInfo) :
    ∀ (m0 : List (String × List PhotoInfo)),
      (∀ kv ∈ m0, ∀ p ∈ kv.2, p.hash_value = kv.1) →
      ∀ kv ∈ foldInsert ps m0, ∀ p ∈ kv.2, p.hash_value = kv.1 := by
  induction ps with
  | nil => intro m0 h; exact h
  | cons q ps ih =>
    intro m0 h
    exact ih _ (bucket_inv_insertAssoc h q)

theorem nodup_keys_foldInsert (ps : List PhotoInfo) :
    ∀ (m0 : List (String × List PhotoInfo)), (m0.map Prod.fst).Nodup →
      ((foldInsert ps m0).map Prod.fst).Nodup := by
  induction ps with
  | nil => intro m0 h; exact h
  | cons q ps ih =>
    intro m0 h
    exact ih _ (nodup_keys_insertAssoc h q.hash_value q)

theorem lookup_foldInsert (ps : List PhotoInfo) :
    ∀ (m0 : List (String × List PhotoInfo)) (k : String),
      lookupAssoc (foldInsert ps m0) k
        = lookupAssoc m0 k ++ ps.filter (fun p => decide (p.hash_value = k)) := by
  induction ps with
  | nil => intro m0 k; simp [foldInsert]
  | cons q ps ih =>
    intro m0 k
    show lookupAssoc (foldInsert ps (insertAssoc m0 q.hash_value q)) k = _
    rw [ih]
    by_cases h : q.hash_value = k
    · subst h
      rw [lookup_insert_self, List.filter_cons, if_pos (by simp), List.append_assoc]
      rfl
    · rw [lookup_insert_ne _ _ _ _ (fun hh => h hh.symm), List.filter_cons,
        if_neg (by simpa using h)]

theorem get_photo_files_foldl (hashFn : List Nat → String) (files : List ScanFile) :
    ∀ m0, files.foldl (fun m f =>
        if photo_extensions.contains (strLower f.ext) then
          if f.readError then m
          else insertAssoc m (hashFn f.content) (mkPhotoInfo hashFn f)
        else m) m0
      = foldInsert (validPhotos hashFn files) m0 := by
  induction files with
  | nil => intro m0; rfl
  | cons f files ih =>
    intro m0
    rw [List.foldl_cons]
    unfold validPhotos
    rw [List.filter_cons]
    by_cases hext : photo_extensions.contains (strLower f.ext) = true
    · have hmem : (strLower f.ext) ∈ photo_extensions := by
        rw [contains_eq_decide] at hext
        exact of_decide_eq_true hext
      by_cases herr : f.readError = true
      · rw [if_pos hext, if_pos herr, if_neg (by simp [herr]), ih]
        rfl
      · have herr2 : f.readError = false := Bool.eq_false_iff.mpr herr
        rw [if_pos hext, if_neg herr, if_pos (by simp [hmem, herr2]), List.map_cons,
          ih]
        rfl
    · have hnmem : (strLower f.ext) ∉ photo_extensions := by
        intro hm
        exact hext (by rw [contains_eq_decide]; exact decide_eq_true hm)
      rw [if_neg hext, if_neg (by simp [hnmem]), ih]
      rfl

theorem get_photo_files_eq (hashFn : List Nat → String) (files : List ScanFile) :
    get_photo_files hashFn files = foldInsert (validPhotos hashFn files) [] :=
  get_photo_files_foldl hashFn files []

theorem lookup_get_photo_files (hashFn : List Nat → String)
    (files : List ScanFile) (k : String) :
    lookupAssoc (get_photo_files hashFn files) k
      = (validPhotos hashFn files).filter (fun p => decide (p.hash_value = k)) := by
  rw [get_photo_files_eq, lookup_foldInsert]
  rfl

/-! ## `exact_match_paths` characterisation -/

theorem mem_foldl_insert_paths (l : List PhotoInfo) :
    ∀ (s0 : List String) (x : String),
      x ∈ l.foldl (fun s q => s.insert q.path) s0 ↔
        x ∈ s0 ∨ x ∈ l.map PhotoInfo.path := by
  induction l with
  | nil => intro s0 x; simp
  | cons q l ih =>
    intro s0 x
    rw [List.foldl_cons, ih]
    simp only [List.mem_insert_iff, List.map_cons, List.mem_cons]
    tauto

theorem exactStep_fold_spec (suf : List PhotoInfo) :
    ∀ (pre : List PhotoInfo) (s0 : List String),
      (∀ x, x ∈ s0 ↔ ∃ p ∈ pre, p.path = x ∧
        2 ≤ pre.countP (fun q => decide (q.hash_value = p.hash_value))) →
      ∀ x, x ∈ (suf.foldl exactStep (foldInsert pre [], s0)).2 ↔
        ∃ p ∈ pre ++ suf, p.path = x ∧
          2 ≤ (pre ++ suf).countP (fun q => decide (q.hash_value = p.hash_value)) := by
  induction suf with
  | nil =>
    intro pre s0 hs x
    rw [List.foldl_nil, List.append_nil]
    exact hs x
  | cons ph suf ih =>
    intro pre s0 hs x
    have hins_eq : insertAssoc (foldInsert pre []) ph.hash_value ph
        = foldInsert (pre ++ [ph]) [] := by
      unfold foldInsert
      rw [List.foldl_append]
      rfl
    have hbucket : lookupAssoc (foldInsert (pre ++ [ph]) []) ph.hash_value
        = (pre ++ [ph]).filter (fun q => decide (q.hash_value = ph.hash_value)) := by
      rw [lookup_foldInsert]
      rfl
    have hstep : exactStep (foldInsert pre [], s0) ph
        = (foldInsert (pre ++ [ph]) [],
            if ((pre ++ [ph]).filter
                (fun q => decide (q.hash_value = ph.hash_value))).length > 1 then
              ((pre ++ [ph]).filter
                (fun q => decide (q.hash_value = ph.hash_value))).foldl
                  (fun s q => s.insert q.path) s0
            else s0) := by
      show (if (lookupAssoc (insertAssoc (foldInsert pre []) ph.hash_value ph)
              ph.hash_value).length > 1 then
          (insertAssoc (foldInsert pre []) ph.hash_value ph,
            (lookupAssoc (insertAssoc (foldInsert pre []) ph.hash_value ph)
              ph.hash_value).foldl (fun s q => s.insert q.path) s0)
        else (insertAssoc (foldInsert pre []) ph.hash_value ph, s0)) = _
      rw [hins_eq, hbucket]
      by_cases hb : ((pre ++ [ph]).filter
          (fun q => decide (q.hash_value = ph.hash_value))).length > 1
      · rw [if_pos hb, if_pos hb]
      · rw [if_neg hb, if_neg hb]
    rw [List.foldl_cons, hstep]
    -- counting helpers
    have hcount_eq : ∀ p : PhotoInfo, p.hash_value = ph.hash_value →
        (pre ++ [ph]).countP (fun q => decide (q.hash_value = p.hash_value))
          = ((pre ++ [ph]).filter
              (fun q => decide (q.hash_value = ph.hash_value))).length := by
      intro p hph
      rw [hph, List.countP_eq_length_filter]
    have hcount_ne : ∀ p : PhotoInfo, p.hash_value ≠ ph.hash_value →
        (pre ++ [ph]).countP (fun q => decide (q.hash_value = p.hash_value))
          = pre.countP (fun q => decide (q.hash_value = p.hash_value)) := by
      intro p hph
      rw [List.countP_append]
      have : [ph].countP (fun q => decide (q.hash_value = p.hash_value)) = 0 := by
        simp [List.countP_cons]
        intro hh
        exact absurd hh.symm hph
      rw [this, Nat.add_zero]
    have hmono : ∀ p : PhotoInfo,
        pre.countP (fun q => decide (q.hash_value = p.hash_value))
          ≤ (pre ++ [ph]).countP (fun q => decide (q.hash_value = p.hash_value)) := by
      intro p
      rw [List.countP_append]
      exact Nat.le_add_right _ _
    -- the new processed-paths set satisfies the invariant for pre ++ [ph]
    have hinv : ∀ y, y ∈ (if ((pre ++ [ph]).filter
          (fun q => decide (q.hash_value = ph.hash_value))).length > 1 then
        ((pre ++ [ph]).filter
          (fun q => decide (q.hash_value = ph.hash_value))).foldl
            (fun s q => s.insert q.path) s0
      else s0) ↔
        ∃ p ∈ pre ++ [ph], p.path = y ∧
          2 ≤ (pre ++ [ph]).countP (fun q => decide (q.hash_value = p.hash_value)) := by
      intro y
      by_cases hb : ((pre ++ [ph]).filter
          (fun q => decide (q.hash_value = ph.hash_value))).length > 1
      · rw [if_pos hb, mem_foldl_insert_paths]
        constructor
        · rintro (hy | hy)
          · obtain ⟨p, hp, hpath, hcnt⟩ := (hs y).mp hy
            exact ⟨p, List.mem_append_left _ hp, hpath, le_trans hcnt (hmono p)⟩
          · obtain ⟨p, hp, hpath⟩ := List.mem_map.mp hy
            obtain ⟨hpmem, hpf⟩ := List.mem_filter.mp hp
            have hph : p.hash_value = ph.hash_value := of_decide_eq_true hpf
            refine ⟨p, hpmem, hpath, ?_⟩
            rw [hcount_eq p hph]
            omega
        · rintro ⟨p, hp, hpath, hcnt⟩
          by_cases hph : p.hash_value = ph.hash_value
          · right
            exact hpath ▸ List.mem_map_of_mem PhotoInfo.path
              (List.mem_filter.mpr ⟨hp, decide_eq_true hph⟩)
          · left
            have hppre : p ∈ pre := by
              rcases List.mem_append.mp hp with h | h
              · exact h
              · simp only [List.mem_singleton] at h
                exact absurd (h ▸ rfl) hph
            refine (hs y).mpr ⟨p, hppre, hpath, ?_⟩
            rw [← hcount_ne p hph]
            exact hcnt
      · rw [if_neg hb]
        constructor
        · intro hy
          obtain ⟨p, hp, hpath, hcnt⟩ := (hs y).mp hy
          exact ⟨p, List.mem_append_left _ hp, hpath, le_trans hcnt (hmono p)⟩
        · rintro ⟨p, hp, hpath, hcnt⟩
          by_cases hph : p.hash_value = ph.hash_value
          · exfalso
            rw [hcount_eq p hph] at hcnt
            omega
          · have hppre : p ∈ pre := by
              rcases List.mem_append.mp hp with h | h
              · exact h
              · simp only [List.mem_singleton] at h
                exact absurd (h ▸ rfl) hph
            refine (hs y).mpr ⟨p, hppre, hpath, ?_⟩
            rw [← hcount_ne p hph]
            exact hcnt
    have hfin := ih (pre ++ [ph]) _ hinv x
    rwa [List.append_assoc, List.singleton_append] at hfin

/-- A path is in `exact_match_paths` exactly when it is the path of a record
whose MD5 digest occurs at least twice in the list. -/
theorem exact_match_paths_spec (photos : List PhotoInfo) (x : String) :
    x ∈ exact_match_paths photos ↔
      ∃ p ∈ photos, p.path = x ∧
        2 ≤ photos.countP (fun q => decide (q.hash_value = p.hash_value)) := by
  have h := exactStep_fold_spec photos [] [] (by intro y; simp) x
  simpa using h

/-! ## Disjointness of groups -/

theorem greedyCluster_subset_aux (t : ℚ) :
    ∀ (n : Nat) (l : List PhotoInfo), l.length ≤ n →
      ∀ g ∈ greedyCluster t l, ∀ p ∈ g, p ∈ l := by
  intro n
  induction n with
  | zero =>
    intro l hl g hg
    have : l = [] := List.length_eq_zero.mp (Nat.le_zero.mp hl)
    subst this
    rw [greedyCluster_nil] at hg
    cases hg
  | succ n ih =>
    intro l hl g hg p hp
    match l, hl with
    | [], _ =>
      rw [greedyCluster_nil] at hg
      cases hg
    | q :: rest, hl =>
      rw [greedyCluster_cons] at hg
      have hrest : rest.length ≤ n := by
        simp only [List.length_cons] at hl
        omega
      have hrem : (rest.filter (fun q2 =>
          !decide (t ≤ calculate_similarity q.image_hash q2.image_hash))).length ≤ n :=
        le_trans (List.length_filter_le _ _) hrest
      by_cases hm : (rest.filter (fun q2 =>
          decide (t ≤ calculate_similarity q.image_hash q2.image_hash))).isEmpty = true
      · rw [if_pos hm] at hg
        exact List.mem_cons_of_mem q (List.filter_sublist rest |>.subset
          (ih _ hrem g hg p hp))
      · rw [if_neg hm] at hg
        rcases List.mem_cons.mp hg with rfl | hg2
        · rcases List.mem_cons.mp hp with rfl | hp2
          · exact List.mem_cons_self _ _
          · exact List.mem_cons_of_mem q ((List.filter_sublist rest).subset hp2)
        · exact List.mem_cons_of_mem q ((List.filter_sublist rest).subset
            (ih _ hrem g hg2 p hp))

theorem greedyCluster_subset (t : ℚ) (l : List PhotoInfo) :
    ∀ g ∈ greedyCluster t l, ∀ p ∈ g, p ∈ l :=
  greedyCluster_subset_aux t l.length l le_rfl

theorem greedyCluster_disjoint_aux (t : ℚ) :
    ∀ (n : Nat) (l : List PhotoInfo), l.length ≤ n →
      (l.map PhotoInfo.path).Nodup →
      ∀ g1 g2 p, g1 ∈ greedyCluster t l → g2 ∈ greedyCluster t l →
        p ∈ g1 → p ∈ g2 → g1 = g2 := by
  intro n
  induction n with
  | zero =>
    intro l hl _ g1 g2 p hg1 hg2
    have : l = [] := List.length_eq_zero.mp (Nat.le_zero.mp hl)
    subst this
    rw [greedyCluster_nil] at hg1
    cases hg1
  | succ n ih =>
    intro l hl hnd g1 g2 p hg1 hg2 hp1 hp2
    match l, hl, hnd with
    | [], _, _ =>
      rw [greedyCluster_nil] at hg1
      cases hg1
    | q :: rest, hl, hnd =>
      have hqp : q.path ∉ rest.map PhotoInfo.path := (List.nodup_cons.mp hnd).1
      have hndrest : (rest.map PhotoInfo.path).Nodup := (List.nodup_cons.mp hnd).2
      have hrest : rest.length ≤ n := by
        simp only [List.length_cons] at hl
        omega
      have hrem : (rest.filter (fun q2 =>
          !decide (t ≤ calculate_similarity q.image_hash q2.image_hash))).length ≤ n :=
        le_trans (List.length_filter_le _ _) hrest
      have hndrem : ((rest.filter (fun q2 =>
          !decide (t ≤ calculate_similarity q.image_hash q2.image_hash))).map
            PhotoInfo.path).Nodup :=
        ((List.filter_sublist rest).map PhotoInfo.path).nodup hndrest
      -- a member of any group of the recursive call is not in the head group
      have hsep : ∀ g ∈ greedyCluster t (rest.filter (fun q2 =>
            !decide (t ≤ calculate_similarity q.image_hash q2.image_hash))),
          ∀ r ∈ g, r ∉ q :: rest.filter (fun q2 =>
            decide (t ≤ calculate_similarity q.image_hash q2.image_hash)) := by
        intro g hg r hr hrmem
        have hrin : r ∈ rest.filter (fun q2 =>
            !decide (t ≤ calculate_similarity q.image_hash q2.image_hash)) :=
          greedyCluster_subset t _ g hg r hr
        obtain ⟨hrrest, hrneg⟩ := List.mem_filter.mp hrin
        rcases List.mem_cons.mp hrmem with rfl | hrpos
        · exact hqp (List.mem_map_of_mem PhotoInfo.path hrrest)
        · have := (List.mem_filter.mp hrpos).2
          rw [this] at hrneg
          cases hrneg
      rw [greedyCluster_cons] at hg1 hg2
      by_cases hm : (rest.filter (fun q2 =>
          decide (t ≤ calculate_similarity q.image_hash q2.image_hash))).isEmpty = true
      · rw [if_pos hm] at hg1 hg2
        exact ih _ hrem hndrem g1 g2 p hg1 hg2 hp1 hp2
      · rw [if_neg hm] at hg1 hg2
        rcases List.mem_cons.mp hg1 with rfl | hg1r
        · rcases List.mem_cons.mp hg2 with rfl | hg2r
          · rfl
          · exact absurd hp1 (hsep g2 hg2r p hp2)
        · rcases List.mem_cons.mp hg2 with rfl | hg2r
          · exact absurd hp2 (hsep g1 hg1r p hp1)
          · exact ih _ hrem hndrem g1 g2 p hg1r hg2r hp1 hp2

theorem greedyCluster_disjoint (t : ℚ) (l : List PhotoInfo)
    (hnd : (l.map PhotoInfo.path).Nodup) :
    ∀ g1 g2 p, g1 ∈ greedyCluster t l → g2 ∈ greedyCluster t l →
      p ∈ g1 → p ∈ g2 → g1 = g2 :=
  greedyCluster_disjoint_aux t l.length l le_rfl hnd

theorem mem_duplicateGroups_exact (t : ℚ) (m : List (String × List PhotoInfo)) :
    ∀ g, g ∈ duplicateGroupsRun true t m ↔ ∃ k, (k, g) ∈ m ∧ 1 < g.length := by
  intro g
  unfold duplicateGroupsRun
  rw [if_pos rfl]
  simp only [List.mem_map, List.mem_filter]
  constructor
  · rintro ⟨kv, ⟨hkv, hlen⟩, rfl⟩
    refine ⟨kv.1, ?_, by simpa using hlen⟩
    simpa using hkv
  · rintro ⟨k, hk, hlen⟩
    exact ⟨(k, g), ⟨hk, by simpa using hlen⟩, rfl⟩

/-- C5: a record belongs to at most one group per run.  Exact-mode groups
(the MD5 buckets of size at least 2) are pairwise disjoint; similarity
groups are pairwise disjoint; and each member of a similarity group has a
content digest that occurs at most once in the scanned pool, so exact
duplicate sets (digest partitions of size at least 2) and similarity groups
can never share a member. -/
theorem record_in_at_most_one_group (t : ℚ) (hashFn : List Nat → String)
    (files : List ScanFile) (photos : List PhotoInfo)
    (hnd : (photos.map PhotoInfo.path).Nodup) :
    (∀ g1 g2 p, g1 ∈ duplicateGroupsRun true t (get_photo_files hashFn files) →
        g2 ∈ duplicateGroupsRun true t (get_photo_files hashFn files) →
        p ∈ g1 → p ∈ g2 → g1 = g2)
    ∧ (∀ g1 g2 p, g1 ∈ find_similar_images t photos →
        g2 ∈ find_similar_images t photos → p ∈ g1 → p ∈ g2 → g1 = g2)
    ∧ (∀ g ∈ find_similar_images t photos, ∀ p ∈ g,
        photos.countP (fun q => decide (q.hash_value = p.hash_value)) ≤ 1) := by
  have hndk : ((get_photo_files hashFn files).map Prod.fst).Nodup := by
    rw [get_photo_files_eq]
    exact nodup_keys_foldInsert _ [] (by simp)
  have hinv : ∀ kv ∈ get_photo_files hashFn files, ∀ p ∈ kv.2,
      p.hash_value = kv.1 := by
    rw [get_photo_files_eq]
    exact bucket_inv_foldInsert _ [] (by intro kv h; cases h)
  refine ⟨?_, ?_, ?_⟩
  · intro g1 g2 p hg1 hg2 hp1 hp2
    obtain ⟨k1, hk1, _⟩ := (mem_duplicateGroups_exact t _ g1).mp hg1
    obtain ⟨k2, hk2, _⟩ := (mem_duplicateGroups_exact t _ g2).mp hg2
    have hl1 : lookupAssoc (get_photo_files hashFn files) k1 = g1 :=
      lookup_of_mem hndk hk1
    have hl2 : lookupAssoc (get_photo_files hashFn files) k2 = g2 :=
      lookup_of_mem hndk hk2
    have e1 : p.hash_value = k1 := hinv (k1, g1) hk1 p hp1
    have e2 : p.hash_value = k2 := hinv (k2, g2) hk2 p hp2
    rw [← hl1, ← hl2, ← e1, ← e2]
  · intro g1 g2 p hg1 hg2 hp1 hp2
    have hndu : ((unique_photos photos).map PhotoInfo.path).Nodup := by
      unfold unique_photos
      exact ((List.filter_sublist photos).map PhotoInfo.path).nodup hnd
    rw [find_similar_eq_greedy t photos hnd] at hg1 hg2
    exact greedyCluster_disjoint t _ hndu g1 g2 p hg1 hg2 hp1 hp2
  · intro g hg p hp
    have hpu : p ∈ unique_photos photos := by
      obtain ⟨seed, tail0, rfl, _, hseed, htail⟩ :=
        findSimilarLoop_group_structure t (unique_photos photos) [] g hg
      rcases List.mem_cons.mp hp with rfl | hp2
      · exact hseed
      · exact (htail p hp2).1
    obtain ⟨hpp, hpf⟩ := List.mem_filter.mp hpu
    by_contra hcnt
    have h2 : 2 ≤ photos.countP (fun q => decide (q.hash_value = p.hash_value)) := by
      omega
    have hmem : p.path ∈ exact_match_paths photos :=
      (exact_match_paths_spec photos p.path).mpr ⟨p, hpp, rfl, h2⟩
    rw [contains_eq_decide, decide_eq_true hmem] at hpf
    cases hpf

theorem record_in_at_most_one_group_witness :
    (([(⟨"d", "d", "a", ".jpg", "h1", some "00", some 1, some 1⟩ : PhotoInfo),
        ⟨"d", "d", "b", ".jpg", "h2", some "01", some 1, some 1⟩].map
          PhotoInfo.path).Nodup)
    ∧ ((∀ g1 g2 p, g1 ∈ duplicateGroupsRun true (95 / 100)
          (get_photo_files (fun _ => "h")
            [⟨"d", "d", "a", ".jpg", [1], some "00", some 1, 1, false⟩,
              ⟨"d", "d", "b", ".jpg", [1], some "01", some 1, 1, false⟩]) →
        g2 ∈ duplicateGroupsRun true (95 / 100)
          (get_photo_files (fun _ => "h")
            [⟨"d", "d", "a", ".jpg", [1], some "00", some 1, 1, false⟩,
              ⟨"d", "d", "b", ".jpg", [1], some "01", some 1, 1, false⟩]) →
        p ∈ g1 → p ∈ g2 → g1 = g2)
      ∧ (∀ g1 g2 p, g1 ∈ find_similar_images (95 / 100)
            [(⟨"d", "d", "a", ".jpg", "h1", some "00", some 1, some 1⟩ : PhotoInfo),
              ⟨"d", "d", "b", ".jpg", "h2", some "01", some 1, some 1⟩] →
          g2 ∈ find_similar_images (95 / 100)
            [(⟨"d", "d", "a", ".jpg", "h1", some "00", some 1, some 1⟩ : PhotoInfo),
              ⟨"d", "d", "b", ".jpg", "h2", some "01", some 1, some 1⟩] →
          p ∈ g1 → p ∈ g2 → g1 = g2)
      ∧ (∀ g ∈ find_similar_images (95 / 100)
            [(⟨"d", "d", "a", ".jpg", "h1", some "00", some 1, some 1⟩ : PhotoInfo),
              ⟨"d", "d", "b", ".jpg", "h2", some "01", some 1, some 1⟩],
          ∀ p ∈ g,
            [(⟨"d", "d", "a", ".jpg", "h1", some "00", some 1, some 1⟩ : PhotoInfo),
              ⟨"d", "d", "b", ".jpg", "h2", some "01", some 1, some 1⟩].countP
                (fun q => decide (q.hash_value = p.hash_value)) ≤ 1)) :=
  ⟨by decide, record_in_at_most_one_group (95 / 100) (fun _ => "h") _ _ (by decide)⟩

/-- C9: byte-identical files have equal content digests (the digest is a
function of the bytes alone, whatever the hash function, independent of
names and dates), their records land in the same MD5 bucket; every bucket
member's digest equals the bucket key (the buckets partition the records by
digest); and in exact mode the processed groups are exactly the buckets
with at least two members — singleton partitions are never emitted. -/
theorem exact_partition_by_digest (hashFn : List Nat → String)
    (files : List ScanFile) (t : ℚ) (f1 f2 : ScanFile)
    (h1 : f1 ∈ files) (h2 : f2 ∈ files)
    (hv1 : photo_extensions.contains (strLower f1.ext) = true)
    (hv2 : photo_extensions.contains (strLower f2.ext) = true)
    (he1 : f1.readError = false) (he2 : f2.readError = false)
    (hc : f1.content = f2.content) :
    ((mkPhotoInfo hashFn f1).hash_value = (mkPhotoInfo hashFn f2).hash_value
      ∧ mkPhotoInfo hashFn f1 ∈
          lookupAssoc (get_photo_files hashFn files) (hashFn f1.content)
      ∧ mkPhotoInfo hashFn f2 ∈
          lookupAssoc (get_photo_files hashFn files) (hashFn f1.content))
    ∧ (∀ kv ∈ get_photo_files hashFn files, ∀ p ∈ kv.2, p.hash_value = kv.1)
    ∧ (∀ g, g ∈ duplicateGroupsRun true t (get_photo_files hashFn files)
        ↔ ∃ k, (k, g) ∈ get_photo_files hashFn files ∧ 2 ≤ g.length) := by
  have hm1 : strLower f1.ext ∈ photo_extensions := by
    rw [contains_eq_decide] at hv1
    exact of_decide_eq_true hv1
  have hm2 : strLower f2.ext ∈ photo_extensions := by
    rw [contains_eq_decide] at hv2
    exact of_decide_eq_true hv2
  refine ⟨⟨?_, ?_, ?_⟩, ?_, ?_⟩
  · show hashFn f1.content = hashFn f2.content
    rw [hc]
  · rw [lookup_get_photo_files]
    refine List.mem_filter.mpr ⟨?_, by simp [mkPhotoInfo]⟩
    exact List.mem_map_of_mem _ (List.mem_filter.mpr ⟨h1, by simp [hm1, he1]⟩)
  · rw [lookup_get_photo_files]
    refine List.mem_filter.mpr ⟨?_, ?_⟩
    · exact List.mem_map_of_mem _ (List.mem_filter.mpr ⟨h2, by simp [hm2, he2]⟩)
    · show decide ((mkPhotoInfo hashFn f2).hash_value = hashFn f1.content) = true
      rw [hc]
      simp [mkPhotoInfo]
  · rw [get_photo_files_eq]
    exact bucket_inv_foldInsert _ [] (by intro kv h; cases h)
  · intro g
    rw [mem_duplicateGroups_exact]
    constructor
    · rintro ⟨k, hk, hlen⟩
      exact ⟨k, hk, by omega⟩
    · rintro ⟨k, hk, hlen⟩
      exact ⟨k, hk, by omega⟩

theorem exact_partition_by_digest_witness :
    ((mkPhotoInfo (fun _ => "h")
        (⟨"d", "d", "a", ".jpg", [1], some "00", some 1, 1, false⟩ : ScanFile)).hash_value
      = (mkPhotoInfo (fun _ => "h")
        (⟨"d", "d", "b", ".jpg", [1], some "01", some 1, 1, false⟩ : ScanFile)).hash_value
      ∧ mkPhotoInfo (fun _ => "h")
          (⟨"d", "d", "a", ".jpg", [1], some "00", some 1, 1, false⟩ : ScanFile) ∈
          lookupAssoc (get_photo_files (fun _ => "h")
            [⟨"d", "d", "a", ".jpg", [1], some "00", some 1, 1, false⟩,
              ⟨"d", "d", "b", ".jpg", [1], some "01", some 1, 1, false⟩]) "h"
      ∧ mkPhotoInfo (fun _ => "h")
          (⟨"d", "d", "b", ".jpg", [1], some "01", some 1, 1, false⟩ : ScanFile) ∈
          lookupAssoc (get_photo_files (fun _ => "h")
            [⟨"d", "d", "a", ".jpg", [1], some "00", some 1, 1, false⟩,
              ⟨"d", "d", "b", ".jpg", [1], some "01", some 1, 1, false⟩]) "h")
    ∧ (∀ kv ∈ get_photo_files (fun _ => "h")
          [(⟨"d", "d", "a", ".jpg", [1], some "00", some 1, 1, false⟩ : ScanFile),
            ⟨"d", "d", "b", ".jpg", [1], some "01", some 1, 1, false⟩],
        ∀ p ∈ kv.2, p.hash_value = kv.1)
    ∧ (∀ g, g ∈ duplicateGroupsRun true (95 / 100)
          (get_photo_files (fun _ => "h")
            [(⟨"d", "d", "a", ".jpg", [1], some "00", some 1, 1, false⟩ : ScanFile),
              ⟨"d", "d", "b", ".jpg", [1], some "01", some 1, 1, false⟩])
        ↔ ∃ k, (k, g) ∈ get_photo_files (fun _ => "h")
            [(⟨"d", "d", "a", ".jpg", [1], some "00", some 1, 1, false⟩ : ScanFile),
              ⟨"d", "d", "b", ".jpg", [1], some "01", some 1, 1, false⟩]
          ∧ 2 ≤ g.length) :=
  exact_partition_by_digest (fun _ => "h") _ (95 / 100) _ _
    (by decide) (by decide) (by decide) (by decide) (by decide) (by decide) (by decide)

/-! ## Permutation of the similarity pool, and filesystem preservation -/

theorem insertAssoc_flatten_perm (m : List (String × List PhotoInfo))
    (k : String) (v : PhotoInfo) :
    ((insertAssoc m k v).map Prod.snd).flatten.Perm
      (v :: (m.map Prod.snd).flatten) := by
  induction m with
  | nil => simp [insertAssoc]
  | cons kv rest ih =>
    obtain ⟨k1, vs⟩ := kv
    by_cases h : k1 = k
    · have hins : insertAssoc ((k1, vs) :: rest) k v = (k1, vs ++ [v]) :: rest := by
        show (if k1 = k then (k1, vs ++ [v]) :: rest
          else (k1, vs) :: insertAssoc rest k v) = _
        rw [if_pos h]
      rw [hins]
      simp only [List.map_cons, List.flatten_cons]
      have hsplit : (vs ++ [v]) ++ ((rest.map Prod.snd).flatten)
          = vs ++ v :: ((rest.map Prod.snd).flatten) := by
        rw [List.append_assoc]
        rfl
      rw [hsplit]
      exact List.perm_middle
    · have hins : insertAssoc ((k1, vs) :: rest) k v
          = (k1, vs) :: insertAssoc rest k v := by
        show (if k1 = k then (k1, vs ++ [v]) :: rest
          else (k1, vs) :: insertAssoc rest k v) = _
        rw [if_neg h]
      rw [hins]
      simp only [List.map_cons, List.flatten_cons]
      exact (ih.append_left vs).trans List.perm_middle

theorem foldInsert_flatten_perm (ps : List PhotoInfo) :
    ∀ (m0 : List (String × List PhotoInfo)),
      ((foldInsert ps m0).map Prod.snd).flatten.Perm
        (ps ++ (m0.map Prod.snd).flatten) := by
  induction ps with
  | nil => intro m0; simp [foldInsert]
  | cons p ps ih =>
    intro m0
    show ((foldInsert ps (insertAssoc m0 p.hash_value p)).map Prod.snd).flatten.Perm _
    exact (ih _).trans
      (((insertAssoc_flatten_perm m0 p.hash_value p).append_left ps).trans
        List.perm_middle)

/-- The similarity pool `all_photos` is a permutation of the scanned
records. -/
theorem all_photos_perm (hashFn : List Nat → String) (files : List ScanFile) :
    (all_photos_of (get_photo_files hashFn files)).Perm
      (validPhotos hashFn files) := by
  unfold all_photos_of
  rw [get_photo_files_eq]
  have h := foldInsert_flatten_perm (validPhotos hashFn files) []
  simpa using h

theorem processOne_eq (mv : String → Bool) (st : RunState) (p : PhotoInfo) :
    processOne mv st p =
      if (st.fs.contains p.path && mv p.path) = true then
        ⟨resolveDest st.fs p :: st.fs.erase p.path,
          st.processed_dirs.insert (duplicateDir p),
          st.movedLog ++ [(p.path, resolveDest st.fs p)], st.errorLog⟩
      else
        ⟨st.fs, st.processed_dirs.insert (duplicateDir p),
          st.movedLog, st.errorLog ++ [p.path]⟩ := by
  simp only [processOne]
  split <;> rfl

theorem processOne_fs_pres (mv : String → Bool) (st : RunState) (p : PhotoInfo)
    (x : String) (hx : x ∈ st.fs) (hne : x ≠ p.path) :
    x ∈ (processOne mv st p).fs := by
  rw [processOne_eq]
  by_cases hok : (st.fs.contains p.path && mv p.path) = true
  · rw [if_pos hok]
    exact List.mem_cons_of_mem _ ((List.mem_erase_of_ne hne).mpr hx)
  · rw [if_neg hok]
    exact hx

theorem foldl_processOne_fs_pres (mv : String → Bool) (l : List PhotoInfo) :
    ∀ (st : RunState) (x : String), x ∈ st.fs → (∀ q ∈ l, x ≠ q.path) →
      x ∈ (l.foldl (processOne mv) st).fs := by
  induction l with
  | nil => intro st x hx _; exact hx
  | cons q l ih =>
    intro st x hx hne
    rw [List.foldl_cons]
    exact ih _ x (processOne_fs_pres mv st q x hx (hne q (List.mem_cons_self _ _)))
      (fun r hr => hne r (List.mem_cons_of_mem q hr))

theorem process_group_fs_pres (mv : String → Bool) (g : List PhotoInfo)
    (st : RunState) (x : String) (hx : x ∈ st.fs)
    (hne : ∀ q ∈ g, x ≠ q.path) :
    x ∈ (process_duplicate_group mv g st).fs := by
  unfold process_duplicate_group
  apply foldl_processOne_fs_pres mv _ st x hx
  intro q hq
  exact hne q ((List.mergeSort_perm g photoLE).subset (List.mem_of_mem_tail hq))

theorem foldl_process_groups_fs_pres (mv : String → Bool)
    (groups : List (List PhotoInfo)) :
    ∀ (st : RunState) (x : String), x ∈ st.fs →
      (∀ g ∈ groups, ∀ q ∈ g, x ≠ q.path) →
      x ∈ (groups.foldl (fun st g => process_duplicate_group mv g st) st).fs := by
  induction groups with
  | nil => intro st x hx _; exact hx
  | cons g groups ih =>
    intro st x hx hne
    rw [List.foldl_cons]
    exact ih _ x (process_group_fs_pres mv g st x hx
        (fun q hq => hne g (List.mem_cons_self _ _) q hq))
      (fun g2 hg2 q hq => hne g2 (List.mem_cons_of_mem g hg2) q hq)

theorem handle_duplicates_eq (mv : String → Bool) (exactOnly : Bool) (t : ℚ)
    (hashFn : List Nat → String) (files : List ScanFile) (fs0 : List String) :
    handle_duplicates mv exactOnly t hashFn files fs0
      = (duplicateGroupsRun exactOnly t (get_photo_files hashFn files)).foldl
          (fun st g => process_duplicate_group mv g st) ⟨fs0, [], [], []⟩ := rfl

theorem find_similar_member_pool (t : ℚ) (photos : List PhotoInfo) :
    ∀ g ∈ find_similar_images t photos, ∀ p ∈ g, p ∈ unique_photos photos := by
  intro g hg p hp
  obtain ⟨seed, tail0, rfl, _, hseed, htail⟩ :=
    findSimilarLoop_group_structure t (unique_photos photos) [] g hg
  rcases List.mem_cons.mp hp with rfl | hp2
  · exact hseed
  · exact (htail p hp2).1

/-- C10: in similarity mode, a scanned record that is byte-identical to
another scanned record (its content digest occurs at least twice among the
scanned records) is excluded from the similarity pool entirely: it is a
member of no processed group, and its file is still at its original path
after the whole run — no exact duplicate group is formed or moved in that
mode. -/
theorem exact_duplicates_untouched_in_similarity_mode
    (moveOk : String → Bool) (t : ℚ) (hashFn : List Nat → String)
    (files : List ScanFile) (fs0 : List String) (f : ScanFile)
    (hcnt : 2 ≤ (validPhotos hashFn files).countP
      (fun q => decide (q.hash_value = hashFn f.content)))
    (hmem : mkPhotoInfo hashFn f ∈ validPhotos hashFn files)
    (hnd : ((all_photos_of (get_photo_files hashFn files)).map PhotoInfo.path).Nodup)
    (hin : (mkPhotoInfo hashFn f).path ∈ fs0) :
    (∀ g ∈ duplicateGroupsRun false t (get_photo_files hashFn files),
        mkPhotoInfo hashFn f ∉ g)
    ∧ (mkPhotoInfo hashFn f).path ∈
        (handle_duplicates moveOk false t hashFn files fs0).fs := by
  have hperm := all_photos_perm hashFn files
  have hPA : mkPhotoInfo hashFn f ∈ all_photos_of (get_photo_files hashFn files) :=
    hperm.mem_iff.mpr hmem
  have hcntA : 2 ≤ (all_photos_of (get_photo_files hashFn files)).countP
      (fun q => decide (q.hash_value = (mkPhotoInfo hashFn f).hash_value)) := by
    rw [hperm.countP_eq]
    exact hcnt
  have hgroups : duplicateGroupsRun false t (get_photo_files hashFn files)
      = find_similar_images t (all_photos_of (get_photo_files hashFn files)) := rfl
  have hnot : ∀ g ∈ duplicateGroupsRun false t (get_photo_files hashFn files),
      mkPhotoInfo hashFn f ∉ g := by
    intro g hg hPg
    rw [hgroups] at hg
    have hPu : mkPhotoInfo hashFn f
        ∈ unique_photos (all_photos_of (get_photo_files hashFn files)) :=
      find_similar_member_pool t _ g hg _ hPg
    obtain ⟨_, hfilt⟩ := List.mem_filter.mp hPu
    have hpath : (mkPhotoInfo hashFn f).path
        ∈ exact_match_paths (all_photos_of (get_photo_files hashFn files)) :=
      (exact_match_paths_spec _ _).mpr ⟨mkPhotoInfo hashFn f, hPA, rfl, hcntA⟩
    rw [contains_eq_decide, decide_eq_true hpath] at hfilt
    cases hfilt
  refine ⟨hnot, ?_⟩
  rw [handle_duplicates_eq]
  apply foldl_process_groups_fs_pres moveOk _ _ _ hin
  intro g hg q hq heq
  have hqA : q ∈ all_photos_of (get_photo_files hashFn files) := by
    have hqu := find_similar_member_pool t _ g (hgroups ▸ hg) q hq
    exact (List.mem_filter.mp hqu).1
  have hqP : q = mkPhotoInfo hashFn f :=
    List.inj_on_of_nodup_map hnd hqA hPA heq.symm
  exact hnot g hg (hqP ▸ hq)

theorem exact_duplicates_untouched_witness :
    2 ≤ (validPhotos (fun _ => "h")
        [(⟨"d", "d", "a", ".jpg", [1], some "00", some 1, 1, false⟩ : ScanFile),
          ⟨"d", "d", "b", ".jpg", [1], some "01", some 1, 1, false⟩]).countP
        (fun q => decide (q.hash_value = (fun _ => "h") [1]))
    ∧ ((∀ g ∈ duplicateGroupsRun false (95 / 100)
          (get_photo_files (fun _ => "h")
            [(⟨"d", "d", "a", ".jpg", [1], some "00", some 1, 1, false⟩ : ScanFile),
              ⟨"d", "d", "b", ".jpg", [1], some "01", some 1, 1, false⟩]),
        mkPhotoInfo (fun _ => "h")
          (⟨"d", "d", "a", ".jpg", [1], some "00", some 1, 1, false⟩ : ScanFile) ∉ g)
      ∧ (mkPhotoInfo (fun _ => "h")
          (⟨"d", "d", "a", ".jpg", [1], some "00", some 1, 1, false⟩ : ScanFile)).path ∈
          (handle_duplicates (fun _ => true) false (95 / 100) (fun _ => "h")
            [(⟨"d", "d", "a", ".jpg", [1], some "00", some 1, 1, false⟩ : ScanFile),
              ⟨"d", "d", "b", ".jpg", [1], some "01", some 1, 1, false⟩]
            ["d/a.jpg", "d/b.jpg"]).fs) :=
  ⟨by decide, exact_duplicates_untouched_in_similarity_mode (fun _ => true)
    (95 / 100) (fun _ => "h") _ _ _ (by decide) (by decide) (by decide) (by decide)⟩

/-! ## Collision counters: decimal rendering and the search loop -/

theorem decDigitsCore_zero : decDigitsCore 0 = [] := by
  rw [decDigitsCore]
  simp

theorem decDigitsCore_pos (n : Nat) (h : n ≠ 0) :
    decDigitsCore n = decDigitsCore (n / 10) ++ [decDigit (n % 10)] := by
  rw [decDigitsCore]
  simp [h]

theorem digitVal_decDigit (d : Nat) (h : d < 10) : digitVal (decDigit d) = d := by
  interval_cases d <;> decide

theorem decVal_append_digit (l : List Char) (c : Char) :
    decVal (l ++ [c]) = 10 * decVal l + digitVal c := by
  unfold decVal
  rw [List.foldl_append]
  rfl

theorem decVal_decDigitsCore (n : Nat) : decVal (decDigitsCore n) = n := by
  induction n using Nat.strong_induction_on with
  | _ n ih =>
    by_cases h : n = 0
    · subst h
      rw [decDigitsCore_zero]
      rfl
    · rw [decDigitsCore_pos n h, decVal_append_digit,
        ih (n / 10) (Nat.div_lt_self (Nat.pos_of_ne_zero h) (by norm_num)),
        digitVal_decDigit (n % 10) (Nat.mod_lt n (by norm_num))]
      omega

theorem decRepr_injective : Function.Injective decRepr := by
  intro a b hab
  by_cases ha : a = 0 <;> by_cases hb : b = 0
  · rw [ha, hb]
  · exfalso
    rw [ha] at hab
    unfold decRepr at hab
    rw [if_pos rfl, if_neg hb] at hab
    have hdata : ("0" : String).data = decDigitsCore b := congrArg String.data hab
    have hv : decVal ("0" : String).data = b := by
      rw [hdata, decVal_decDigitsCore]
    have h0 : decVal ("0" : String).data = 0 := by decide
    exact hb (by omega)
  · exfalso
    rw [hb] at hab
    unfold decRepr at hab
    rw [if_neg ha, if_pos rfl] at hab
    have hdata : decDigitsCore a = ("0" : String).data := congrArg String.data hab
    have hv : a = decVal ("0" : String).data := by
      rw [← hdata, decVal_decDigitsCore]
    have h0 : decVal ("0" : String).data = 0 := by decide
    exact ha (by omega)
  · unfold decRepr at hab
    rw [if_neg ha, if_neg hb] at hab
    have hdata : decDigitsCore a = decDigitsCore b := congrArg String.data hab
    have hv := congrArg decVal hdata
    rwa [decVal_decDigitsCore, decVal_decDigitsCore] at hv

theorem numberedDest_injective (p : PhotoInfo) (dir : String) :
    Function.Injective (numberedDest p dir) := by
  intro c1 c2 h
  have hd := congrArg String.data h
  unfold numberedDest at hd
  simp only [String.data_append, List.append_assoc] at hd
  have hd1 := List.append_cancel_left hd
  have hd2 := List.append_cancel_left hd1
  have hd3 := List.append_cancel_left hd2
  have hd4 := List.append_cancel_left hd3
  have hd5 := List.append_cancel_right hd4
  exact decRepr_injective (String.ext hd5)

theorem exists_free_numbered (fs : List String) (p : PhotoInfo) (dir : String) :
    ∃ j, 1 ≤ j ∧ j < fs.length + 2 ∧ numberedDest p dir j ∉ fs := by
  by_contra hno
  push_neg at hno
  have hinj : Function.Injective (fun i => numberedDest p dir (i + 1)) := by
    intro i1 i2 hi
    have := numberedDest_injective p dir hi
    omega
  have hLnd : ((List.range (fs.length + 1)).map
      (fun i => numberedDest p dir (i + 1))).Nodup :=
    List.Nodup.map hinj (List.nodup_range _)
  have hLsub : ∀ x ∈ (List.range (fs.length + 1)).map
      (fun i => numberedDest p dir (i + 1)), x ∈ fs := by
    intro x hx
    obtain ⟨i, hi, rfl⟩ := List.mem_map.mp hx
    have hi2 : i < fs.length + 1 := List.mem_range.mp hi
    exact hno (i + 1) (by omega) (by omega)
  have hcard1 := List.toFinset_card_of_nodup hLnd
  have hlen : ((List.range (fs.length + 1)).map
      (fun i => numberedDest p dir (i + 1))).length = fs.length + 1 := by
    simp
  have hsub : ((List.range (fs.length + 1)).map
      (fun i => numberedDest p dir (i + 1))).toFinset ⊆ fs.toFinset := by
    intro x hx
    exact List.mem_toFinset.mpr (hLsub x (List.mem_toFinset.mp hx))
  have hcard2 := Finset.card_le_card hsub
  have hcard3 := List.toFinset_card_le (l := fs)
  omega

theorem searchDest_spec (fs : List String) (p : PhotoInfo) (dir : String) :
    ∀ (fuel c : Nat),
      (∃ j, c ≤ j ∧ j < c + fuel ∧ numberedDest p dir j ∉ fs) →
      ∃ j, c ≤ j ∧ numberedDest p dir j ∉ fs
        ∧ searchDest fs p dir fuel c = numberedDest p dir j
        ∧ ∀ i, c ≤ i → i < j → numberedDest p dir i ∈ fs := by
  intro fuel
  induction fuel with
  | zero =>
    intro c hex
    obtain ⟨j, hj1, hj2, _⟩ := hex
    omega
  | succ fuel ih =>
    intro c hex
    by_cases hc : fs.contains (numberedDest p dir c) = true
    · have hcmem : numberedDest p dir c ∈ fs := by
        rw [contains_eq_decide] at hc
        exact of_decide_eq_true hc
      have hex2 : ∃ j, c + 1 ≤ j ∧ j < (c + 1) + fuel
          ∧ numberedDest p dir j ∉ fs := by
        obtain ⟨j, hj1, hj2, hjf⟩ := hex
        refine ⟨j, ?_, by omega, hjf⟩
        rcases Nat.eq_or_lt_of_le hj1 with rfl | hlt
        · exact absurd hcmem hjf
        · omega
      obtain ⟨j, hj1, hjf, heq, hall⟩ := ih (c + 1) hex2
      refine ⟨j, by omega, hjf, ?_, ?_⟩
      · show (if fs.contains (numberedDest p dir c) = true
          then searchDest fs p dir fuel (c + 1)
          else numberedDest p dir c) = numberedDest p dir j
        rw [if_pos hc]
        exact heq
      · intro i hi1 hi2
        rcases Nat.eq_or_lt_of_le hi1 with rfl | hlt
        · exact hcmem
        · exact hall i (by omega) hi2
    · refine ⟨c, le_refl c, ?_, ?_, ?_⟩
      · intro hmem
        exact hc (by rw [contains_eq_decide]; exact decide_eq_true hmem)
      · show (if fs.contains (numberedDest p dir c) = true
          then searchDest fs p dir fuel (c + 1)
          else numberedDest p dir c) = numberedDest p dir c
        rw [if_neg hc]
      · intro i hi1 hi2
        omega

theorem resolveDest_eq (fs : List String) (p : PhotoInfo) :
    resolveDest fs p =
      if fs.contains (destName p (duplicateDir p)) = true
      then searchDest fs p (duplicateDir p) (fs.length + 1) 1
      else destName p (duplicateDir p) := rfl

/-- C7: the move destination is the original filename inside the holding
directory; when occupied, the numbered names `(1)`, `(2)`, … are tried in
order and the first free one is taken; the chosen destination never names
an existing file, and every existing file that is not a moved source is
still present after the group is processed — no existing file is
overwritten. -/
theorem collision_safe_destination (fs : List String) (p : PhotoInfo) :
    (destName p (duplicateDir p) ∉ fs →
      resolveDest fs p = destName p (duplicateDir p))
    ∧ (destName p (duplicateDir p) ∈ fs →
      ∃ c, 1 ≤ c ∧ resolveDest fs p = numberedDest p (duplicateDir p) c
        ∧ numberedDest p (duplicateDir p) c ∉ fs
        ∧ ∀ i, 1 ≤ i → i < c → numberedDest p (duplicateDir p) i ∈ fs)
    ∧ resolveDest fs p ∉ fs
    ∧ (∀ mv g st x, x ∈ RunState.fs st →
        (∀ q ∈ (sort_photos_by_date_and_name g).tail, x ≠ q.path) →
        x ∈ (process_duplicate_group mv g st).fs) := by
  have hbase : destName p (duplicateDir p) ∉ fs →
      resolveDest fs p = destName p (duplicateDir p) := by
    intro h
    rw [resolveDest_eq, if_neg]
    intro hc
    rw [contains_eq_decide] at hc
    exact h (of_decide_eq_true hc)
  have hcoll : destName p (duplicateDir p) ∈ fs →
      ∃ c, 1 ≤ c ∧ resolveDest fs p = numberedDest p (duplicateDir p) c
        ∧ numberedDest p (duplicateDir p) c ∉ fs
        ∧ ∀ i, 1 ≤ i → i < c → numberedDest p (duplicateDir p) i ∈ fs := by
    intro h
    rw [resolveDest_eq, if_pos (by rw [contains_eq_decide]; exact decide_eq_true h)]
    have hex : ∃ j, 1 ≤ j ∧ j < 1 + (fs.length + 1)
        ∧ numberedDest p (duplicateDir p) j ∉ fs := by
      obtain ⟨j, hj1, hj2, hjf⟩ := exists_free_numbered fs p (duplicateDir p)
      exact ⟨j, hj1, by omega, hjf⟩
    obtain ⟨j, hj1, hjf, heq, hall⟩ :=
      searchDest_spec fs p (duplicateDir p) (fs.length + 1) 1 hex
    exact ⟨j, hj1, heq, hjf, hall⟩
  refine ⟨hbase, hcoll, ?_, ?_⟩
  · by_cases h : destName p (duplicateDir p) ∈ fs
    · obtain ⟨c, _, heq, hfree, _⟩ := hcoll h
      rw [heq]
      exact hfree
    · rw [hbase h]
      exact h
  · intro mv g st x hx hne
    unfold process_duplicate_group
    exact foldl_processOne_fs_pres mv _ st x hx hne

theorem collision_safe_destination_witness :
    ("a/a重複/photo.jpg" ∉ ["a/photo.jpg"] →
      resolveDest ["a/photo.jpg"]
        ⟨"a", "a", "photo", ".jpg", "h", none, none, some 1⟩ = "a/a重複/photo.jpg")
    ∧ ("a/a重複/photo.jpg" ∈ ["a/photo.jpg"] →
      ∃ c, 1 ≤ c ∧ resolveDest ["a/photo.jpg"]
          ⟨"a", "a", "photo", ".jpg", "h", none, none, some 1⟩
          = numberedDest ⟨"a", "a", "photo", ".jpg", "h", none, none, some 1⟩
              "a/a重複" c
        ∧ numberedDest ⟨"a", "a", "photo", ".jpg", "h", none, none, some 1⟩
            "a/a重複" c ∉ ["a/photo.jpg"]
        ∧ ∀ i, 1 ≤ i → i < c →
            numberedDest ⟨"a", "a", "photo", ".jpg", "h", none, none, some 1⟩
              "a/a重複" i ∈ ["a/photo.jpg"])
    ∧ resolveDest ["a/photo.jpg"]
        ⟨"a", "a", "photo", ".jpg", "h", none, none, some 1⟩ ∉ ["a/photo.jpg"]
    ∧ (∀ mv g st x, x ∈ RunState.fs st →
        (∀ q ∈ (sort_photos_by_date_and_name g).tail, x ≠ q.path) →
        x ∈ (process_duplicate_group mv g st).fs) := by
  have h := collision_safe_destination ["a/photo.jpg"]
    ⟨"a", "a", "photo", ".jpg", "h", none, none, some 1⟩
  show _ ∧ _ ∧ _ ∧ _
  refine ⟨?_, ?_, ?_, ?_⟩
  · exact h.1
  · exact h.2.1
  · exact h.2.2.1
  · exact h.2.2.2

/-! ## Error isolation (C8) -/

theorem scan_skips_error_files (hashFn : List Nat → String) (files : List ScanFile) :
    get_photo_files hashFn files
      = get_photo_files hashFn (files.filter (fun f => !f.readError)) := by
  rw [get_photo_files_eq, get_photo_files_eq]
  congr 1
  unfold validPhotos
  rw [List.filter_filter]
  congr 1
  apply List.filter_congr
  intro f _
  cases hf : f.readError <;> simp [hf]

theorem processOne_log_count (mv : String → Bool) (st : RunState) (p : PhotoInfo) :
    (processOne mv st p).movedLog.length + (processOne mv st p).errorLog.length
      = st.movedLog.length + st.errorLog.length + 1 := by
  rw [processOne_eq]
  by_cases h : (st.fs.contains p.path && mv p.path) = true
  · rw [if_pos h]
    simp
    omega
  · rw [if_neg h]
    simp
    omega

theorem foldl_processOne_log_count (mv : String → Bool) (l : List PhotoInfo) :
    ∀ st : RunState,
      (l.foldl (processOne mv) st).movedLog.length
          + (l.foldl (processOne mv) st).errorLog.length
        = st.movedLog.length + st.errorLog.length + l.length := by
  induction l with
  | nil => intro st; rfl
  | cons q l ih =>
    intro st
    rw [List.foldl_cons, ih, processOne_log_count]
    simp only [List.length_cons]
    omega

theorem processOne_errorLog_mono (mv : String → Bool) (st : RunState)
    (p : PhotoInfo) (x : String) (hx : x ∈ st.errorLog) :
    x ∈ (processOne mv st p).errorLog := by
  rw [processOne_eq]
  by_cases h : (st.fs.contains p.path && mv p.path) = true
  · rw [if_pos h]
    exact hx
  · rw [if_neg h]
    exact List.mem_append_left _ hx

theorem foldl_processOne_errorLog_mono (mv : String → Bool) (l : List PhotoInfo) :
    ∀ (st : RunState) (x : String), x ∈ st.errorLog →
      x ∈ (l.foldl (processOne mv) st).errorLog := by
  induction l with
  | nil => intro st x hx; exact hx
  | cons q l ih =>
    intro st x hx
    rw [List.foldl_cons]
    exact ih _ x (processOne_errorLog_mono mv st q x hx)

theorem foldl_processOne_failed_logged (mv : String → Bool) (l : List PhotoInfo) :
    ∀ (st : RunState) (p : PhotoInfo), p ∈ l → mv p.path = false →
      p.path ∈ (l.foldl (processOne mv) st).errorLog := by
  induction l with
  | nil => intro st p hp; cases hp
  | cons q l ih =>
    intro st p hp hmv
    rw [List.foldl_cons]
    rcases List.mem_cons.mp hp with rfl | hp2
    · apply foldl_processOne_errorLog_mono mv l _ p.path
      rw [processOne_eq, if_neg (by simp [hmv])]
      exact List.mem_append_right _ (List.mem_singleton.mpr rfl)
    · exact ih _ p hp2 hmv

theorem foldl_processOne_fs_unmoved (mv : String → Bool) (l : List PhotoInfo) :
    ∀ (st : RunState) (x : String), x ∈ st.fs →
      (∀ q ∈ l, x = q.path → mv q.path = false) →
      x ∈ (l.foldl (processOne mv) st).fs := by
  induction l with
  | nil => intro st x hx _; exact hx
  | cons q l ih =>
    intro st x hx hcond
    rw [List.foldl_cons]
    by_cases heq : x = q.path
    · have hmv : mv q.path = false := hcond q (List.mem_cons_self _ _) heq
      have hfs : (processOne mv st q).fs = st.fs := by
        rw [processOne_eq, if_neg (by simp [hmv])]
      exact ih _ x (by rw [hfs]; exact hx)
        (fun r hr h2 => hcond r (List.mem_cons_of_mem q hr) h2)
    · exact ih _ x (processOne_fs_pres mv st q x hx heq)
        (fun r hr h2 => hcond r (List.mem_cons_of_mem q hr) h2)

/-- C8: file-level errors are contained.  A file whose per-file processing
raises during the scan is skipped and the scan of the remaining files is
unchanged; in the move loop every non-kept member of the group is acted on
exactly once (one `logging.info` or one `logging.error` per member, however
many moves fail), a member whose move fails is logged as an error, and its
file is left in place; the loop and the run never abort. -/
theorem file_errors_isolated (hashFn : List Nat → String) (mv : String → Bool) :
    (∀ files, get_photo_files hashFn files
        = get_photo_files hashFn (files.filter (fun f => !f.readError)))
    ∧ (∀ g st, (process_duplicate_group mv g st).movedLog.length
          + (process_duplicate_group mv g st).errorLog.length
        = st.movedLog.length + st.errorLog.length
          + (sort_photos_by_date_and_name g).tail.length)
    ∧ (∀ g st p, p ∈ (sort_photos_by_date_and_name g).tail →
        mv p.path = false →
        p.path ∈ (process_duplicate_group mv g st).errorLog
        ∧ (p.path ∈ RunState.fs st →
            (∀ q ∈ (sort_photos_by_date_and_name g).tail,
              p.path = q.path → mv q.path = false) →
            p.path ∈ (process_duplicate_group mv g st).fs)) := by
  refine ⟨scan_skips_error_files hashFn, ?_, ?_⟩
  · intro g st
    unfold process_duplicate_group
    exact foldl_processOne_log_count mv _ st
  · intro g st p hp hmv
    unfold process_duplicate_group
    constructor
    · exact foldl_processOne_failed_logged mv _ st p hp hmv
    · intro hin hcond
      exact foldl_processOne_fs_unmoved mv _ st p.path hin hcond

theorem file_errors_isolated_witness :
    (⟨"d", "d", "b", ".jpg", "h2", none, some 5, some 5⟩ : PhotoInfo) ∈
      (sort_photos_by_date_and_name
        [(⟨"d", "d", "a", ".jpg", "h1", none, some 1, some 1⟩ : PhotoInfo),
          ⟨"d", "d", "b", ".jpg", "h2", none, some 5, some 5⟩]).tail
    ∧ ((∀ files, get_photo_files (fun _ => "h") files
          = get_photo_files (fun _ => "h") (files.filter (fun f => !f.readError)))
      ∧ (∀ g st, (process_duplicate_group (fun _ => false) g st).movedLog.length
            + (process_duplicate_group (fun _ => false) g st).errorLog.length
          = st.movedLog.length + st.errorLog.length
            + (sort_photos_by_date_and_name g).tail.length)
      ∧ (∀ g st p, p ∈ (sort_photos_by_date_and_name g).tail →
          (fun _ => false) p.path = false →
          p.path ∈ (process_duplicate_group (fun _ => false) g st).errorLog
          ∧ (p.path ∈ RunState.fs st →
              (∀ q ∈ (sort_photos_by_date_and_name g).tail,
                p.path = q.path → (fun _ => false) q.path = false) →
              p.path ∈ (process_duplicate_group (fun _ => false) g st).fs))) := by
  constructor
  · rw [show sort_photos_by_date_and_name
        [(⟨"d", "d", "a", ".jpg", "h1", none, some 1, some 1⟩ : PhotoInfo),
          ⟨"d", "d", "b", ".jpg", "h2", none, some 5, some 5⟩]
        = [(⟨"d", "d", "a", ".jpg", "h1", none, some 1, some 1⟩ : PhotoInfo),
          ⟨"d", "d", "b", ".jpg", "h2", none, some 5, some 5⟩]
      from List.mergeSort_of_sorted (by decide)]
    decide
  · exact file_errors_isolated (fun _ => "h") (fun _ => false)

/-! ## The returned directory set (C2) -/

theorem processOne_dirs (mv : String → Bool) (st : RunState) (p : PhotoInfo)
    (x : String) :
    x ∈ (processOne mv st p).processed_dirs ↔
      x = duplicateDir p ∨ x ∈ st.processed_dirs := by
  rw [processOne_eq]
  by_cases h : (st.fs.contains p.path && mv p.path) = true
  · rw [if_pos h]
    exact List.mem_insert_iff
  · rw [if_neg h]
    exact List.mem_insert_iff

theorem foldl_processOne_dirs (mv : String → Bool) (l : List PhotoInfo) :
    ∀ (st : RunState) (x : String),
      x ∈ (l.foldl (processOne mv) st).processed_dirs ↔
        x ∈ st.processed_dirs ∨ ∃ q ∈ l, duplicateDir q = x := by
  induction l with
  | nil => intro st x; simp
  | cons q l ih =>
    intro st x
    rw [List.foldl_cons, ih, processOne_dirs]
    constructor
    · rintro ((rfl | hx) | ⟨r, hr, hrx⟩)
      · exact Or.inr ⟨q, List.mem_cons_self _ _, rfl⟩
      · exact Or.inl hx
      · exact Or.inr ⟨r, List.mem_cons_of_mem q hr, hrx⟩
    · rintro (hx | ⟨r, hr, hrx⟩)
      · exact Or.inl (Or.inr hx)
      · rcases List.mem_cons.mp hr with rfl | hr2
        · exact Or.inl (Or.inl hrx.symm)
        · exact Or.inr ⟨r, hr2, hrx⟩

theorem process_group_dirs (mv : String → Bool) (g : List PhotoInfo)
    (st : RunState) (x : String) :
    x ∈ (process_duplicate_group mv g st).processed_dirs ↔
      x ∈ st.processed_dirs ∨
        ∃ q ∈ (sort_photos_by_date_and_name g).tail, duplicateDir q = x := by
  unfold process_duplicate_group
  exact foldl_processOne_dirs mv _ st x

theorem foldl_groups_dirs (mv : String → Bool) (groups : List (List PhotoInfo)) :
    ∀ (st : RunState) (x : String),
      x ∈ (groups.foldl (fun st g => process_duplicate_group mv g st)
          st).processed_dirs ↔
        x ∈ st.processed_dirs ∨ ∃ g ∈ groups,
          ∃ q ∈ (sort_photos_by_date_and_name g).tail, duplicateDir q = x := by
  induction groups with
  | nil => intro st x; simp
  | cons g groups ih =>
    intro st x
    rw [List.foldl_cons, ih, process_group_dirs]
    constructor
    · rintro ((hx | ⟨q, hq, hqx⟩) | ⟨g2, hg2, hex⟩)
      · exact Or.inl hx
      · exact Or.inr ⟨g, List.mem_cons_self _ _, q, hq, hqx⟩
      · exact Or.inr ⟨g2, List.mem_cons_of_mem g hg2, hex⟩
    · rintro (hx | ⟨g2, hg2, hex⟩)
      · exact Or.inl (Or.inl hx)
      · rcases List.mem_cons.mp hg2 with rfl | hg3
        · exact Or.inl (Or.inr hex)
        · exact Or.inr ⟨g2, hg3, hex⟩

/-- C2 (amended): the directory set returned by `handle_duplicates`
contains exactly the holding directories of the non-kept members of the
processed groups — the directories in which a move was *attempted* (and
which `mkdir` created) — whether or not any move into them succeeded. -/
theorem returned_dirs_are_attempted_dirs (mv : String → Bool) (exactOnly : Bool)
    (t : ℚ) (hashFn : List Nat → String) (files : List ScanFile)
    (fs0 : List String) :
    ∀ x, x ∈ (handle_duplicates mv exactOnly t hashFn files fs0).processed_dirs ↔
      ∃ g ∈ duplicateGroupsRun exactOnly t (get_photo_files hashFn files),
        ∃ q ∈ (sort_photos_by_date_and_name g).tail, duplicateDir q = x := by
  intro x
  rw [handle_duplicates_eq, foldl_groups_dirs]
  simp

/-- A run in which every move fails still reports the holding directory:
the returned set is not the set of directories that received a moved file
(here nothing was moved at all, the filesystem is unchanged, yet one
directory is reported), refuting the claim as stated. -/
theorem dir_reported_without_any_move :
    (handle_duplicates (fun _ => false) true (95 / 100) (fun _ => "h")
        [(⟨"d", "d", "a", ".jpg", [1], none, some 1, 1, false⟩ : ScanFile),
          ⟨"d", "d", "b", ".jpg", [1], none, some 5, 5, false⟩]
        ["d/a.jpg", "d/b.jpg"]).processed_dirs = ["d/d重複"]
    ∧ (handle_duplicates (fun _ => false) true (95 / 100) (fun _ => "h")
        [(⟨"d", "d", "a", ".jpg", [1], none, some 1, 1, false⟩ : ScanFile),
          ⟨"d", "d", "b", ".jpg", [1], none, some 5, 5, false⟩]
        ["d/a.jpg", "d/b.jpg"]).movedLog = []
    ∧ (handle_duplicates (fun _ => false) true (95 / 100) (fun _ => "h")
        [(⟨"d", "d", "a", ".jpg", [1], none, some 1, 1, false⟩ : ScanFile),
          ⟨"d", "d", "b", ".jpg", [1], none, some 5, 5, false⟩]
        ["d/a.jpg", "d/b.jpg"]).fs = ["d/a.jpg", "d/b.jpg"] := by
  rw [handle_duplicates_eq]
  rw [show duplicateGroupsRun true (95 / 100) (get_photo_files (fun _ => "h")
      [(⟨"d", "d", "a", ".jpg", [1], none, some 1, 1, false⟩ : ScanFile),
        ⟨"d", "d", "b", ".jpg", [1], none, some 5, 5, false⟩])
      = [[(⟨"d", "d", "a", ".jpg", "h", none, some 1, some 1⟩ : PhotoInfo),
          ⟨"d", "d", "b", ".jpg", "h", none, some 5, some 5⟩]] from by decide]
  rw [List.foldl_cons, List.foldl_nil]
  unfold process_duplicate_group
  rw [show sort_photos_by_date_and_name
      [(⟨"d", "d", "a", ".jpg", "h", none, some 1, some 1⟩ : PhotoInfo),
        ⟨"d", "d", "b", ".jpg", "h", none, some 5, some 5⟩]
      = [(⟨"d", "d", "a", ".jpg", "h", none, some 1, some 1⟩ : PhotoInfo),
        ⟨"d", "d", "b", ".jpg", "h", none, some 5, some 5⟩]
    from List.mergeSort_of_sorted (by decide)]
  refine ⟨by decide, by decide, by decide⟩

theorem returned_dirs_are_attempted_dirs_witness :
    ∀ x, x ∈ (handle_duplicates (fun _ => false) true (95 / 100) (fun _ => "h")
        [(⟨"d", "d", "a", ".jpg", [1], none, some 1, 1, false⟩ : ScanFile),
          ⟨"d", "d", "b", ".jpg", [1], none, some 5, 5, false⟩]
        ["d/a.jpg", "d/b.jpg"]).processed_dirs ↔
      ∃ g ∈ duplicateGroupsRun true (95 / 100) (get_photo_files (fun _ => "h")
          [(⟨"d", "d", "a", ".jpg", [1], none, some 1, 1, false⟩ : ScanFile),
            ⟨"d", "d", "b", ".jpg", [1], none, some 5, 5, false⟩]),
        ∃ q ∈ (sort_photos_by_date_and_name g).tail, duplicateDir q = x :=
  returned_dirs_are_attempted_dirs (fun _ => false) true (95 / 100) (fun _ => "h")
    [(⟨"d", "d", "a", ".jpg", [1], none, some 1, 1, false⟩ : ScanFile),
      ⟨"d", "d", "b", ".jpg", [1], none, some 5, 5, false⟩]
    ["d/a.jpg", "d/b.jpg"]

end PhotoDup
